import Mathlib

/-!
# Prime index service (`go/pkg/sieve/sieve.go`)

A shallow embedding of the Go package `sieve` and a verification of its
behaviour.

Modelling conventions.

* Go's `int` and `int64` are 64-bit two's-complement integers.  They are
  embedded as `Int`, and every arithmetic result that the program computes
  on them goes through an explicit wrap-around function (`wrap64` in the
  program itself; the loops take the wrap-around as a parameter so that the
  same text can also be run with unbounded integers).
* A Go slice is a `List`.  Indexing is checked: an index outside
  `0 .. len-1` is the runtime panic `index out of range`.
* A Go `panic` (explicit or raised by the runtime) is an error value of
  type `Panic`; a function that can panic returns `Except Panic _`, and a
  function that also contains an unbounded `for` loop returns `Run _`.
* An unbounded `for` loop is a recursive function on a fuel counter; one
  unit of fuel is spent on each evaluation of the loop condition, and a
  loop that is still running when the fuel is gone yields `Run.outOfFuel`.
* `make([]bool, n)` follows `runtime.makeslice` on a 64-bit platform: it
  panics for `n < 0` and for `n` above the runtime's `maxAlloc = 2^48`
  bytes, and otherwise returns `n` cells holding `false` (memory below
  `maxAlloc` is assumed to be available).
* `float64` is modelled bit-exactly as IEEE 754 binary64 with
  round-to-nearest-even; `math.Log` follows the portable implementation of
  Go's standard library (`math/log.go`).
-/

namespace Sieve

/-! ## Failures -/

/-- The three ways in which the package can stop with a Go panic. -/
inductive Panic where
  /-- `panic("Invalid input: negative index not allowed")` in `NthPrime`. -/
  | negativeIndex
  /-- The runtime panic `index out of range [i] with length n`. -/
  | indexOutOfRange
  /-- The runtime panic `makeslice: len out of range`. -/
  | makesliceLen
  deriving DecidableEq, Repr

/-- Outcome of running code that contains unbounded loops. -/
inductive Run (α : Type) where
  /-- Normal return. -/
  | done (a : α)
  /-- The code stopped with a panic. -/
  | panic (p : Panic)
  /-- A loop was still running when the fuel was used up. -/
  | outOfFuel
  deriving DecidableEq, Repr

/-- A call whose result is passed on: panics and non-termination of the call
    are those of the caller. -/
def Run.map {α β : Type} (f : α → β) : Run α → Run β
  | .done a => .done (f a)
  | .panic e => .panic e
  | .outOfFuel => .outOfFuel

/-! ## Machine integers and slices -/

/-- Two's-complement wrap-around of a 64-bit signed integer. -/
def wrap64 (x : Int) : Int := (x + 2 ^ 63) % 2 ^ 64 - 2 ^ 63

/-- Largest slice size in bytes that `runtime.makeslice` accepts (64-bit). -/
def maxAlloc : Int := 2 ^ 48

/-- The expression `make([]bool, n)`. -/
def makeBools (n : Int) : Except Panic (List Bool) :=
  if n < 0 ∨ maxAlloc < n then .error .makesliceLen
  else .ok (List.replicate n.toNat false)

/-- The expression `marked[i]` used as a value. -/
def readAt (marked : List Bool) (i : Int) : Except Panic Bool :=
  if 0 ≤ i ∧ i < marked.length then .ok (marked.getD i.toNat false)
  else .error .indexOutOfRange

/-- The statement `marked[i] = b`. -/
def writeAt (marked : List Bool) (i : Int) (b : Bool) : Except Panic (List Bool) :=
  if 0 ≤ i ∧ i < marked.length then .ok (marked.set i.toNat b)
  else .error .indexOutOfRange

/-! ## The sieve (`findPrimes`, lines 51-75) -/

/-- The loop `for i := 2; i < len(marked); i++ { marked[i] = true }`,
    entered with the current value of `i`. -/
def initLoop (w : Int → Int) : Nat → Int → List Bool → Run (List Bool)
  | 0, _, _ => .outOfFuel
  | fuel + 1, i, marked =>
    if i < marked.length then
      match writeAt marked i true with
      | .error p => .panic p
      | .ok m => initLoop w fuel (w (i + 1)) m
    else .done marked

/-- The loop `for j := smallPrime * smallPrime; j < len(marked); j += smallPrime
    { marked[j] = false }`, entered with the current value of `j`. -/
def strikeLoop (w : Int → Int) : Nat → Int → Int → List Bool → Run (List Bool)
  | 0, _, _, _ => .outOfFuel
  | fuel + 1, smallPrime, j, marked =>
    if j < marked.length then
      match writeAt marked j false with
      | .error p => .panic p
      | .ok m => strikeLoop w fuel smallPrime (w (j + smallPrime)) m
    else .done marked

/-- The loop `for i := 2; i*i < len(marked); i++ { if marked[i] { ... } }`,
    entered with the current value of `i`.  `inner` is the fuel handed to each
    run of the striking loop. -/
def markLoop (w : Int → Int) (inner : Nat) : Nat → Int → List Bool → Run (List Bool)
  | 0, _, _ => .outOfFuel
  | fuel + 1, i, marked =>
    if w (i * i) < marked.length then
      match readAt marked i with
      | .error p => .panic p
      | .ok true =>
        match strikeLoop w inner i (w (i * i)) marked with
        | .done m => markLoop w inner fuel (w (i + 1)) m
        | .panic p => .panic p
        | .outOfFuel => .outOfFuel
      | .ok false => markLoop w inner fuel (w (i + 1)) marked
    else .done marked

/-- The loop `for i := range marked { if marked[i] { p = append(p, int64(i)) } }`
    over the remaining indices. -/
def collectLoop (marked : List Bool) : List Nat → List Int → Except Panic (List Int)
  | [], p => .ok p
  | i :: rest, p =>
    match readAt marked (i : Int) with
    | .error e => .error e
    | .ok true => collectLoop marked rest (p ++ [(i : Int)])
    | .ok false => collectLoop marked rest p

/-- Lines 51-75 of `findPrimes`: the sieve of Eratosthenes for a given
    `limit`, with integer arithmetic `w` and `fuel` for each loop. -/
def sieveWith (w : Int → Int) (fuel : Nat) (limit : Int) : Run (List Int) :=
  match makeBools (w (limit + 1)) with
  | .error p => .panic p
  | .ok marked =>
    match initLoop w fuel 2 marked with
    | .panic p => .panic p
    | .outOfFuel => .outOfFuel
    | .done m1 =>
      match markLoop w fuel fuel 2 m1 with
      | .panic p => .panic p
      | .outOfFuel => .outOfFuel
      | .done m2 =>
        match collectLoop m2 (List.range m2.length) [] with
        | .error p => .panic p
        | .ok p => .done p

/-- Fuel that lets every loop of the sieve for `limit` run to its end. -/
def sieveFuel (limit : Int) : Nat := (limit + 2).toNat

/-- The sieve as the program runs it: 64-bit integers. -/
def sieve (limit : Int) : Run (List Int) :=
  sieveWith wrap64 (sieveFuel limit) limit

/-! ## IEEE 754 binary64 -/

/-- A `float64` value.  `fin neg m e` is the finite number
    `(-1)^neg * m * 2^e`, stored the way the format stores it: `m < 2^53`,
    `-1074 ≤ e ≤ 971`, and `2^52 ≤ m` unless `e = -1074` (subnormals and the
    two zeros). -/
inductive F64 where
  /-- Not a number. -/
  | nan
  /-- Plus or minus infinity. -/
  | inf (neg : Bool)
  /-- A finite value, zero included. -/
  | fin (neg : Bool) (m : Nat) (e : Int)
  deriving DecidableEq, Repr

namespace F64

/-- The integer `(-1)^neg * m`. -/
def signed (neg : Bool) (m : Nat) : Int := if neg then -(m : Int) else (m : Int)

/-- Number of binary digits of `m`, found by at most `fuel` halvings. -/
def bitLen : Nat → Nat → Nat
  | 0, _ => 0
  | fuel + 1, m => if m = 0 then 0 else bitLen fuel (m / 2) + 1

/-- Number of binary digits of `m` (`0` for `m = 0`). -/
def digits (m : Nat) : Nat := bitLen m m

/-- The integer nearest to `m * 2^e / 2^e1`, ties to even; when `sticky` is
    set the numerator stands for a value slightly above `m * 2^e`, which
    breaks a tie upwards. -/
def scaleRound (m : Nat) (e e1 : Int) (sticky : Bool) : Nat :=
  if e1 ≤ e then m <<< (e - e1).toNat
  else
    let sh := (e1 - e).toNat
    let low := m % 2 ^ sh
    let half := 2 ^ (sh - 1)
    let kept := m >>> sh
    if half < low ∨ (low = half ∧ (sticky = true ∨ kept % 2 = 1)) then kept + 1
    else kept

/-- Rounding to nearest, ties to even, of the magnitude `m * 2^e` increased,
    when `sticky` is set, by a nonzero amount below `2^e`.  With `sticky`
    set, `m` must have more than 53 binary digits. -/
def round (neg : Bool) (m : Nat) (e : Int) (sticky : Bool) : F64 :=
  if m = 0 then .fin neg 0 (-1074)
  else
    let e1 : Int := max (e + (digits m : Int) - 53) (-1074)
    let q : Nat := scaleRound m e e1 sticky
    if q = 2 ^ 53 then (if 971 < e1 + 1 then .inf neg else .fin neg (2 ^ 52) (e1 + 1))
    else if 971 < e1 then .inf neg
    else .fin neg q e1

/-- Decoding of the 64-bit pattern `b`. -/
def ofBits (b : Nat) : F64 :=
  let neg : Bool := decide (b / 2 ^ 63 % 2 = 1)
  let ex : Nat := b / 2 ^ 52 % 2 ^ 11
  let frac : Nat := b % 2 ^ 52
  if ex = 2047 then (if frac = 0 then .inf neg else .nan)
  else if ex = 0 then .fin neg frac (-1074)
  else .fin neg (2 ^ 52 + frac) ((ex : Int) - 1075)

/-- The conversion `float64(n)` of a 64-bit integer. -/
def ofInt (n : Int) : F64 := round (decide (n < 0)) n.natAbs 0 false

/-- Unary minus. -/
def neg : F64 → F64
  | .nan => .nan
  | .inf s => .inf (!s)
  | .fin s m e => .fin (!s) m e

/-- The sum `x + y`. -/
def add : F64 → F64 → F64
  | .nan, _ => .nan
  | _, .nan => .nan
  | .inf a, .inf b => if a = b then .inf a else .nan
  | .inf a, .fin _ _ _ => .inf a
  | .fin _ _ _, .inf b => .inf b
  | .fin s1 m1 e1, .fin s2 m2 e2 =>
    let e := min e1 e2
    let s : Int := signed s1 (m1 <<< (e1 - e).toNat) + signed s2 (m2 <<< (e2 - e).toNat)
    if s = 0 then .fin (s1 && s2) 0 (-1074)
    else round (decide (s < 0)) s.natAbs e false

/-- The difference `x - y`. -/
def sub (x y : F64) : F64 := add x (neg y)

/-- The product `x * y`. -/
def mul : F64 → F64 → F64
  | .nan, _ => .nan
  | _, .nan => .nan
  | .inf a, .inf b => .inf (a != b)
  | .inf a, .fin s m _ => if m = 0 then .nan else .inf (a != s)
  | .fin s m _, .inf b => if m = 0 then .nan else .inf (s != b)
  | .fin s1 m1 e1, .fin s2 m2 e2 => round (s1 != s2) (m1 * m2) (e1 + e2) false

/-- The quotient `x / y`. -/
def div : F64 → F64 → F64
  | .nan, _ => .nan
  | _, .nan => .nan
  | .inf _, .inf _ => .nan
  | .inf a, .fin s _ _ => .inf (a != s)
  | .fin s _ _, .inf b => .fin (s != b) 0 (-1074)
  | .fin s1 m1 e1, .fin s2 m2 e2 =>
    if m2 = 0 then (if m1 = 0 then .nan else .inf (s1 != s2))
    else round (s1 != s2) ((m1 <<< 128) / m2) (e1 - e2 - 128)
      (decide ((m1 <<< 128) % m2 ≠ 0))

/-- The comparison `x < y`. -/
def lt : F64 → F64 → Bool
  | .nan, _ => false
  | _, .nan => false
  | .inf a, .inf b => a && !b
  | .inf a, .fin _ _ _ => a
  | .fin _ _ _, .inf b => !b
  | .fin s1 m1 e1, .fin s2 m2 e2 =>
    let e := min e1 e2
    decide (signed s1 (m1 <<< (e1 - e).toNat) < signed s2 (m2 <<< (e2 - e).toNat))

/-- The comparison `x == 0`. -/
def isZero : F64 → Bool
  | .fin _ m _ => decide (m = 0)
  | _ => false

/-- The library function `math.Frexp`: fraction in `[1/2, 1)` and exponent. -/
def frexp : F64 → F64 × Int
  | .fin s m e =>
    if m = 0 then (.fin s 0 (-1074), 0)
    else (.fin s (m <<< (53 - digits m)) (-53), e + 53 - ((53 - digits m : Nat) : Int))
  | x => (x, 0)

/-- The library function `math.Ceil`: the least integral value not below
    `x`; zeros, infinities and NaN are returned unchanged. -/
def ceil : F64 → F64
  | .fin s m e =>
    if 0 ≤ e then .fin s m e
    else
      let c : Int := -((-(signed s m)) / (2 ^ (-e).toNat : Int))
      if c = 0 then .fin s 0 (-1074) else round (decide (c < 0)) c.natAbs 0 false
  | x => x

/-- Result of converting to `int64` a value that `int64` cannot represent.
    Go leaves it to the implementation; this is what amd64 produces. -/
def int64Indefinite : Int := -(2 ^ 63)

/-- The conversion `int64(x)`: truncation towards zero. -/
def toInt64 : F64 → Int
  | .fin s m e =>
    let t : Int := if 0 ≤ e then signed s (m <<< e.toNat) else signed s (m >>> (-e).toNat)
    if -(2 ^ 63) ≤ t ∧ t < 2 ^ 63 then t else int64Indefinite
  | _ => int64Indefinite

/-- The library function `math.Log` (portable implementation `math/log.go`,
    operations rounded one by one). -/
def log (x : F64) : F64 :=
  -- special cases
  match x with
  | .nan => x
  | .inf false => x
  | _ =>
    if x.lt (ofInt 0) then .nan
    else if x.isZero then .inf true
    else
      let Ln2Hi := ofBits 0x3fe62e42fee00000
      let Ln2Lo := ofBits 0x3dea39ef35793c76
      let L1 := ofBits 0x3FE5555555555593
      let L2 := ofBits 0x3FD999999997FA04
      let L3 := ofBits 0x3FD2492494229359
      let L4 := ofBits 0x3FCC71C51D8E78AF
      let L5 := ofBits 0x3FC7466496CB03DE
      let L6 := ofBits 0x3FC39A09D078C69F
      let L7 := ofBits 0x3FC2F112DF3E5244
      let halfSqrt2 := ofBits 0x3FE6A09E667F3BCD
      -- reduce
      let fr := frexp x
      let small := fr.1.lt halfSqrt2
      let f1 := if small then mul fr.1 (ofInt 2) else fr.1
      let ki := if small then wrap64 (fr.2 - 1) else fr.2
      let f := sub f1 (ofInt 1)
      let k := ofInt ki
      -- compute
      let s := div f (add (ofInt 2) f)
      let s2 := mul s s
      let s4 := mul s2 s2
      let t1 := mul s2 (add L1 (mul s4 (add L3 (mul s4 (add L5 (mul s4 L7))))))
      let t2 := mul s4 (add L2 (mul s4 (add L4 (mul s4 L6))))
      let R := add t1 t2
      let hfsq := mul (mul (ofBits 0x3FE0000000000000) f) f
      sub (mul k Ln2Hi) (sub (sub hfsq (add (mul s (add hfsq R)) (mul k Ln2Lo))) f)

end F64

/-! ## `findPrimes` and `NewSieve` -/

/-- Lines 44-49 of `findPrimes`: the sieve limit derived from the largest
    prime index `n`. -/
def limitOf (n : Int) : Int :=
  let n := wrap64 (n + 1)
  let logN := F64.log (F64.ofInt n)
  let logLogN := F64.log logN
  let limitFl := F64.ceil (F64.mul (F64.ofInt n) (F64.add logN logLogN))
  F64.toInt64 limitFl

/-- The function `findPrimes`. -/
def findPrimes (n : Int) : Run (List Int) := sieve (limitOf n)

/-- The constant `maxPrimeIndex`. -/
def maxPrimeIndex : Int := 10000000

/-! ## The service -/

/-- The Go struct `eratosthenesSieve`. -/
structure eratosthenesSieve where
  /-- The precomputed prime list. -/
  primes : List Int
  deriving DecidableEq, Repr

/-- The method `NthPrime`. -/
def eratosthenesSieve.NthPrime (s : eratosthenesSieve) (n : Int) : Except Panic Int :=
  if n < 0 then .error .negativeIndex
  else if n < s.primes.length then .ok (s.primes.getD n.toNat 0)
  else .error .indexOutOfRange

/-- The constructor `NewSieve`: the struct holding what `findPrimes` returns;
    a build that does not return yields no service. -/
def NewSieve : Run eratosthenesSieve :=
  Run.map (fun p => { primes := p }) (findPrimes maxPrimeIndex)


/-! ## Specification vocabulary -/

/-- Integer arithmetic that yields the exact result whenever that result
    fits in 64 bits. -/
def Exact64 (w : Int → Int) : Prop :=
  ∀ x : Int, -(2 ^ 63) ≤ x → x < 2 ^ 63 → w x = x

/-- What the marked array of length `len` holds when the marking loop is
    about to test `i`: a cell `k` is still marked exactly when `k ≥ 2` and no
    `d` with `2 ≤ d < i` and `d * d ≤ k` divides `k`. -/
def Sifted (len i : Nat) (marked : List Bool) : Prop :=
  marked.length = len ∧
  ∀ k, k < len →
    (marked.getD k false = true ↔
      2 ≤ k ∧ ∀ d, 2 ≤ d → d < i → d * d ≤ k → ¬ d ∣ k)

/-- The primes below `n`, in ascending order. -/
def primesBelow (n : Nat) : List Nat :=
  (List.range n).filter (fun k => decide (Nat.Prime k))

/-- The primes `≤ limit`, in ascending order, as 64-bit integers. -/
def primesUpTo (limit : Int) : List Int :=
  List.map (fun k : Nat => (k : Int)) (primesBelow (limit + 1).toNat)

/-! ## Prime counting

The rank queried at scale, 10,000,000, needs the number of primes below
numbers near `1.8 * 10^8`.  It is computed by Meissel's method: a Legendre
sum over the primes below 569 and a count of the products of two larger
primes. -/

/-- Trial division of `n` by the members of `l` in turn, stopping with
    `true` at the first member whose square exceeds `n`. -/
def isPrimeBy (l : List Nat) : Nat → Bool :=
  List.rec (fun _ => true)
    (fun p _ ih n => Bool.rec (Bool.rec (ih n) false (Nat.beq (Nat.mod n p) 0)) true
      (Nat.blt n (Nat.mul p p))) l

/-- Legendre's sum: with `l` the primes below some bound, largest first,
    `phi l y` is the number of `n` in `1 .. y` that no member of `l` divides. -/
def phi (l : List Nat) : Nat → Nat :=
  List.rec (fun y => y)
    (fun p _ ih y => Bool.rec
      (Nat.sub (ih y) (Nat.rec (ih 0) (fun k _ => ih (Nat.succ k)) (Nat.div y p)))
      1 (Nat.blt y p)) l

/-- Sum, over the primes `n` in `b .. b + fuel - 1` from the largest down, of
    the number of primes in `n .. x / n`.  `prev` is `phi D` at the previous
    quotient and `N` the previous term. -/
def pairSum (S D : List Nat) (x b : Nat) (fuel : Nat) : Nat → Nat → Nat :=
  Nat.rec (fun _ _ => 0)
    (fun f ih prev N => Bool.rec (ih prev N)
      ((fun (F : Nat → Nat) =>
          Nat.rec (F 0) (fun t _ => F (Nat.succ t)) (phi D (Nat.div x (Nat.add b f))))
        (fun t =>
          (fun (G : Nat → Nat) =>
              Nat.rec (G 0) (fun m _ => G (Nat.succ m)) (Nat.sub (Nat.add (Nat.succ N) t) prev))
            (fun m => Nat.add m (ih t m))))
      (isPrimeBy S (Nat.add b f))) fuel

/-- The 103 primes below 569. -/
def smallPrimes : List Nat :=
  [2, 3, 5, 7, 11, 13, 17, 19, 23, 29, 31, 37, 41, 43, 47, 53, 59, 61, 67, 71, 73, 79, 83,
   89, 97, 101, 103, 107, 109, 113, 127, 131, 137, 139, 149, 151, 157, 163, 167, 173, 179,
   181, 191, 193, 197, 199, 211, 223, 227, 229, 233, 239, 241, 251, 257, 263, 269, 271, 277,
   281, 283, 293, 307, 311, 313, 317, 331, 337, 347, 349, 353, 359, 367, 373, 379, 383, 389,
   397, 401, 409, 419, 421, 431, 433, 439, 443, 449, 457, 461, 463, 467, 479, 487, 491, 499,
   503, 509, 521, 523, 541, 547, 557, 563]

/-- Number of `n` in `1 .. y` that no member of `l` divides. -/
def roughCount (l : List Nat) (y : Nat) : Nat :=
  ((Finset.Icc 1 y).filter (fun n => ∀ q ∈ l, ¬ q ∣ n)).card

/-- The primes in `a .. c - 1`, in ascending order. -/
def primesFrom (a c : Nat) : List Nat :=
  (List.range' a (c - a)).filter (fun k => decide (Nat.Prime k))

/-- Number of products `p * q ≤ x` of two primes with `b ≤ p < e` and
    `p ≤ q`, counted by the smaller factor. -/
def pairTotal (x b e : Nat) : Nat :=
  Finset.sum (Finset.Ico b e) (fun n =>
    if Nat.Prime n then Nat.count Nat.Prime (x / n + 1) - Nat.count Nat.Prime n else 0)

/-! ## The build and the service, step by step

The definitions below split `findPrimes` at its loop boundaries and record
the states its marking loops pass through; they serve the statements about
what happens during the build. -/

/-- Lines 53-56 of `findPrimes`: the marked array after the initialisation
    loop. -/
def initArray (w : Int → Int) (fuel : Nat) (limit : Int) : Run (List Bool) :=
  match makeBools (w (limit + 1)) with
  | .error p => .panic p
  | .ok marked => initLoop w fuel 2 marked

/-- Lines 53-66 of `findPrimes`: the marked array after the marking loop. -/
def markedArray (w : Int → Int) (fuel : Nat) (limit : Int) : Run (List Bool) :=
  match initArray w fuel limit with
  | .panic p => .panic p
  | .outOfFuel => .outOfFuel
  | .done m1 => markLoop w fuel fuel 2 m1

/-- Lines 68-75 of `findPrimes`: the collection loop run on the outcome of the
    marking. -/
def collectRun : Run (List Bool) → Run (List Int)
  | .panic p => .panic p
  | .outOfFuel => .outOfFuel
  | .done m2 =>
    match collectLoop m2 (List.range m2.length) [] with
    | .error p => .panic p
    | .ok p => .done p

/-- The successive values of `j` with which the condition `j < len(marked)` of
    the striking loop is evaluated, the loop being entered with `j`. -/
def strikeStates (w : Int → Int) : Nat → Int → Int → List Bool → List Int
  | 0, _, _, _ => []
  | fuel + 1, smallPrime, j, marked =>
    j :: (if j < marked.length then
      match writeAt marked j false with
      | .error _ => []
      | .ok m => strikeStates w fuel smallPrime (w (j + smallPrime)) m
    else [])

/-- The successive states `(i, marked)` in which the condition
    `i*i < len(marked)` of the marking loop is evaluated, the loop being
    entered with `i` and `marked`. -/
def markStates (w : Int → Int) (inner : Nat) : Nat → Int → List Bool → List (Int × List Bool)
  | 0, _, _ => []
  | fuel + 1, i, marked =>
    (i, marked) :: (if w (i * i) < marked.length then
      match readAt marked i with
      | .error _ => []
      | .ok true =>
        match strikeLoop w inner i (w (i * i)) marked with
        | .done m => markStates w inner fuel (w (i + 1)) m
        | .panic _ => []
        | .outOfFuel => []
      | .ok false => markStates w inner fuel (w (i + 1)) marked
    else [])

/-- The method `NthPrime` as a call on a service held in memory: its outcome
    and the service as the call leaves it.  The body of the method contains no
    assignment, so each branch hands back the service it was given. -/
def eratosthenesSieve.callNthPrime (s : eratosthenesSieve) (n : Int) :
    Except Panic Int × eratosthenesSieve :=
  if n < 0 then (.error .negativeIndex, s)
  else if n < s.primes.length then (.ok (s.primes.getD n.toNat 0), s)
  else (.error .indexOutOfRange, s)

/-- A sequence of calls of `NthPrime` on the same service, each call working
    on the service as the call before left it (a panic is taken to be
    recovered by the caller): the outcomes in order, and the service at the
    end. -/
def eratosthenesSieve.callsNthPrime (s : eratosthenesSieve) :
    List Int → List (Except Panic Int) × eratosthenesSieve
  | [] => ([], s)
  | n :: rest =>
    let r := s.callNthPrime n
    let rs := eratosthenesSieve.callsNthPrime r.2 rest
    (r.1 :: rs.1, rs.2)

/-! ## Striking from `2 * i`

Modelled from the spec's words: the variant of the marking loop that the
spec compares the program with, in which the striking starts at `2 * i`
instead of `i * i`. -/

/-- The marking loop with the inner loop entered at `j = 2 * smallPrime`. -/
def markLoopFromDouble (w : Int → Int) (inner : Nat) :
    Nat → Int → List Bool → Run (List Bool)
  | 0, _, _ => .outOfFuel
  | fuel + 1, i, marked =>
    if w (i * i) < marked.length then
      match readAt marked i with
      | .error p => .panic p
      | .ok true =>
        match strikeLoop w inner i (w (2 * i)) marked with
        | .done m => markLoopFromDouble w inner fuel (w (i + 1)) m
        | .panic p => .panic p
        | .outOfFuel => .outOfFuel
      | .ok false => markLoopFromDouble w inner fuel (w (i + 1)) marked
    else .done marked

/-- The marked array after the marking loop that strikes from `2 * i`. -/
def markedArrayFromDouble (w : Int → Int) (fuel : Nat) (limit : Int) : Run (List Bool) :=
  match initArray w fuel limit with
  | .panic p => .panic p
  | .outOfFuel => .outOfFuel
  | .done m1 => markLoopFromDouble w fuel fuel 2 m1

/-- What the marked array of length `len` holds when the loop that strikes
    from `2 * i` is about to test `i`: a cell `k` is still marked exactly when
    `k ≥ 2` and no `d` with `2 ≤ d < i` and `d < k` divides `k`. -/
def SiftedAll (len i : Nat) (marked : List Bool) : Prop :=
  marked.length = len ∧
  ∀ k, k < len →
    (marked.getD k false = true ↔
      2 ≤ k ∧ ∀ d, 2 ≤ d → d < i → d < k → ¬ d ∣ k)

/-! ## Verification -/

theorem wrap64_exact : Exact64 wrap64 := by
  intro x h1 h2
  unfold wrap64
  norm_num at h1 h2 ⊢
  omega

theorem id_exact : Exact64 (fun x => x) := fun _ _ _ => rfl

theorem getD_set_bool (l : List Bool) (i k : Nat) (b : Bool) :
    (l.set i b).getD k false = if i = k ∧ i < l.length then b else l.getD k false := by
  simp only [List.getD_eq_getElem?_getD, List.getElem?_set]
  by_cases h : i = k
  · subst h
    by_cases h2 : i < l.length
    · simp [h2]
    · simp [h2, List.getElem?_eq_none (not_lt.mp h2)]
  · simp [h]

theorem readAt_nat (marked : List Bool) (k : Nat) (h : k < marked.length) :
    readAt marked (k : Int) = .ok (marked.getD k false) := by
  unfold readAt
  have : (0 : Int) ≤ k ∧ (k : Int) < marked.length := ⟨by omega, by omega⟩
  simp [this]

theorem writeAt_nat (marked : List Bool) (k : Nat) (b : Bool) (h : k < marked.length) :
    writeAt marked (k : Int) b = .ok (marked.set k b) := by
  unfold writeAt
  have : (0 : Int) ≤ k ∧ (k : Int) < marked.length := ⟨by omega, by omega⟩
  simp [this]

theorem initLoop_spec (w : Int → Int) (hw : Exact64 w) :
    ∀ (fuel i : Nat) (marked : List Bool),
      marked.length ≤ 2 ^ 62 → marked.length + 1 ≤ i + fuel → 1 ≤ fuel →
      ∃ m, initLoop w fuel (i : Int) marked = .done m ∧ m.length = marked.length ∧
        ∀ k, m.getD k false =
          if i ≤ k ∧ k < marked.length then true else marked.getD k false := by
  intro fuel
  induction fuel with
  | zero => intro i marked _ _ h; omega
  | succ fuel ih =>
    intro i marked hlen hfuel _
    unfold initLoop
    by_cases hi : i < marked.length
    · have hi' : (i : Int) < (marked.length : Int) := by omega
      have hw1 : w ((i : Int) + 1) = ((i + 1 : Nat) : Int) := by
        have := hw ((i : Int) + 1) (by omega) (by norm_num at hlen ⊢; omega)
        simpa using this
      simp only [hi', if_true, writeAt_nat marked i true hi, hw1]
      obtain ⟨m, hm, hml, hmk⟩ := ih (i + 1) (marked.set i true)
        (by simpa using hlen) (by simp; omega) (by omega)
      refine ⟨m, hm, by simpa using hml, ?_⟩
      intro k
      rw [hmk k, getD_set_bool]
      simp only [List.length_set]
      by_cases hk : i = k
      · subst hk; simp [hi]
      · by_cases hk2 : i + 1 ≤ k ∧ k < marked.length
        · have : i ≤ k ∧ k < marked.length := ⟨by omega, hk2.2⟩
          simp [hk2, this]
        · have : ¬ (i ≤ k ∧ k < marked.length) := by omega
          simp [hk2, this, hk]
    · have hi' : ¬ (i : Int) < (marked.length : Int) := by omega
      simp only [hi', if_false]
      refine ⟨marked, rfl, rfl, ?_⟩
      intro k
      have : ¬ (i ≤ k ∧ k < marked.length) := by omega
      simp [this]

theorem strikeLoop_spec (w : Int → Int) (hw : Exact64 w) (p : Nat) (hp : 0 < p)
    (hp62 : p ≤ 2 ^ 62) :
    ∀ (fuel j : Nat) (marked : List Bool),
      marked.length ≤ 2 ^ 62 → p ∣ j → marked.length + 1 ≤ j + fuel → 1 ≤ fuel →
      ∃ m, strikeLoop w fuel (p : Int) (j : Int) marked = .done m ∧
        m.length = marked.length ∧
        ∀ k, m.getD k false =
          if j ≤ k ∧ p ∣ k then false else marked.getD k false := by
  intro fuel
  induction fuel with
  | zero => intro j marked _ _ _ h; omega
  | succ fuel ih =>
    intro j marked hlen hdvd hfuel _
    unfold strikeLoop
    by_cases hj : j < marked.length
    · have hj' : (j : Int) < (marked.length : Int) := by omega
      have hw1 : w ((j : Int) + (p : Int)) = ((j + p : Nat) : Int) := by
        have := hw ((j : Int) + p) (by omega) (by norm_num at hlen hp62 ⊢; omega)
        simpa using this
      simp only [hj', if_true, writeAt_nat marked j false hj, hw1]
      obtain ⟨m, hm, hml, hmk⟩ := ih (j + p) (marked.set j false)
        (by simpa using hlen) (Dvd.dvd.add hdvd (dvd_refl p)) (by simp; omega) (by omega)
      refine ⟨m, hm, by simpa using hml, ?_⟩
      intro k
      rw [hmk k, getD_set_bool]
      by_cases hk : j = k
      · subst hk
        have h1 : ¬ (j + p ≤ j ∧ p ∣ j) := by omega
        simp [h1, hj, hdvd]
      · by_cases hk2 : j ≤ k ∧ p ∣ k
        · have h3 : j + p ≤ k := by
            obtain ⟨a, ha⟩ := hdvd
            obtain ⟨b, hb⟩ := hk2.2
            have hab : a < b := by
              by_contra hcon
              have : b ≤ a := not_lt.mp hcon
              have : p * b ≤ p * a := Nat.mul_le_mul_left p this
              omega
            have : p * (a + 1) ≤ p * b := Nat.mul_le_mul_left p hab
            rw [Nat.mul_add, Nat.mul_one] at this
            omega
          simp [hk2, h3]
        · have h3 : ¬ (j + p ≤ k ∧ p ∣ k) := by
            intro h; exact hk2 ⟨by omega, h.2⟩
          simp [hk2, h3, hk]
    · have hj' : ¬ (j : Int) < (marked.length : Int) := by omega
      simp only [hj', if_false]
      refine ⟨marked, rfl, rfl, ?_⟩
      intro k
      by_cases hk2 : j ≤ k ∧ p ∣ k
      · have : marked.length ≤ k := by omega
        simp [hk2, List.getD_eq_getElem?_getD, List.getElem?_eq_none this]
      · simp [hk2]

theorem sifted_skip (len i : Nat) (marked : List Bool) (h : Sifted len i marked)
    (hi2 : 2 ≤ i) (hil : i < len) (hmi : marked.getD i false = false) :
    Sifted len (i + 1) marked := by
  refine ⟨h.1, fun k hk => ?_⟩
  rw [h.2 k hk]
  constructor
  · rintro ⟨h2, hall⟩
    refine ⟨h2, fun d hd2 hdi hdk hdvd => ?_⟩
    rcases Nat.lt_succ_iff_lt_or_eq.mp hdi with hlt | heq
    · exact hall d hd2 hlt hdk hdvd
    · subst heq
      -- `d` itself is unmarked, so it has a small divisor
      have hnot : ¬ (2 ≤ d ∧ ∀ c, 2 ≤ c → c < d → c * c ≤ d → ¬ c ∣ d) := by
        intro hc
        have := (h.2 d hil).mpr hc
        rw [hmi] at this
        exact Bool.false_ne_true this
      push_neg at hnot
      obtain ⟨c, hc2, hcd, hcc, hcdvd⟩ := hnot hd2
      have : d ≤ d * d := Nat.le_mul_self d
      exact hall c hc2 hcd (by omega) (dvd_trans hcdvd hdvd)
  · rintro ⟨h2, hall⟩
    exact ⟨h2, fun d hd2 hdi hdk => hall d hd2 (by omega) hdk⟩

theorem sifted_strike (len i : Nat) (marked m : List Bool) (h : Sifted len i marked)
    (hi2 : 2 ≤ i) (hml : m.length = marked.length)
    (hmk : ∀ k, m.getD k false = if i * i ≤ k ∧ i ∣ k then false else marked.getD k false) :
    Sifted len (i + 1) m := by
  refine ⟨by rw [hml]; exact h.1, fun k hk => ?_⟩
  rw [hmk k]
  by_cases hc : i * i ≤ k ∧ i ∣ k
  · simp only [hc, and_self, if_true, Bool.false_eq_true, false_iff]
    rintro ⟨h2, hall⟩
    exact hall i hi2 (by omega) hc.1 hc.2
  · simp only [hc, if_false]
    rw [h.2 k hk]
    constructor
    · rintro ⟨h2, hall⟩
      refine ⟨h2, fun d hd2 hdi hdk hdvd => ?_⟩
      rcases Nat.lt_succ_iff_lt_or_eq.mp hdi with hlt | heq
      · exact hall d hd2 hlt hdk hdvd
      · subst heq; exact hc ⟨hdk, hdvd⟩
    · rintro ⟨h2, hall⟩
      exact ⟨h2, fun d hd2 hdi hdk => hall d hd2 (by omega) hdk⟩


theorem sq_bound {i len : Nat} (h : i * i < len) (hlen : len ≤ 2 ^ 62) : i < 2 ^ 31 := by
  by_contra hc
  have h1 : 2 ^ 31 ≤ i := not_lt.mp hc
  have h2 : 2 ^ 31 * 2 ^ 31 ≤ i * i := Nat.mul_le_mul h1 h1
  norm_num at h2 hlen
  omega

theorem markLoop_spec (w : Int → Int) (hw : Exact64 w) (len inner : Nat)
    (hlen : len ≤ 2 ^ 62) (hinner : len + 1 ≤ inner) :
    ∀ (fuel i : Nat) (marked : List Bool),
      Sifted len i marked → 2 ≤ i → i ≤ 2 ^ 31 → len + 1 ≤ i + fuel → 1 ≤ fuel →
      ∃ m i2, markLoop w inner fuel (i : Int) marked = .done m ∧
        Sifted len i2 m ∧ len ≤ i2 * i2 := by
  intro fuel
  induction fuel with
  | zero => intro i marked _ _ _ _ h; omega
  | succ fuel ih =>
    intro i marked hs hi2 hi31 hfuel _
    have hml : marked.length = len := hs.1
    have hsq : i * i ≤ 2 ^ 62 := by
      have := Nat.mul_le_mul hi31 hi31
      norm_num at this ⊢
      exact this
    have hw1 : w ((i : Int) * (i : Int)) = ((i * i : Nat) : Int) := by
      have := hw ((i : Int) * i)
        (le_trans (by norm_num) (mul_nonneg (Int.ofNat_nonneg i) (Int.ofNat_nonneg i))) (by
        have : ((i * i : Nat) : Int) ≤ 2 ^ 62 := by exact_mod_cast hsq
        push_cast at this
        norm_num at this ⊢
        omega)
      simpa using this
    unfold markLoop
    rw [hw1]
    by_cases hc : i * i < len
    · have hc' : ((i * i : Nat) : Int) < (marked.length : Int) := by rw [hml]; exact_mod_cast hc
      have hil : i < len := lt_of_le_of_lt (Nat.le_mul_self i) hc
      have hi31' : i < 2 ^ 31 := sq_bound hc hlen
      have hw2 : w ((i : Int) + 1) = ((i + 1 : Nat) : Int) := by
        have := hw ((i : Int) + 1) (by omega) (by norm_num at hi31' ⊢; omega)
        simpa using this
      simp only [hc', if_true, readAt_nat marked i (by omega), hw2]
      cases hb : marked.getD i false with
      | true =>
        simp only []
        obtain ⟨m, hm, hmlen, hmk⟩ := strikeLoop_spec w hw i (by omega)
          (by norm_num at hi31 ⊢; omega) inner (i * i) marked (by omega)
          (Dvd.intro i rfl) (by omega) (by omega)
        rw [hm]
        simp only []
        exact ih (i + 1) m (sifted_strike len i marked m hs hi2 hmlen hmk) (by omega)
          (by omega) (by omega) (by omega)
      | false =>
        simp only []
        exact ih (i + 1) marked (sifted_skip len i marked hs hi2 hil hb) (by omega)
          (by omega) (by omega) (by omega)
    · have hc' : ¬ ((i * i : Nat) : Int) < (marked.length : Int) := by
        rw [hml]; intro h; exact hc (by exact_mod_cast h)
      simp only [hc', if_false]
      exact ⟨marked, i, rfl, hs, not_lt.mp hc⟩

theorem sifted_prime (len i : Nat) (m : List Bool) (h : Sifted len i m)
    (hi : len ≤ i * i) (k : Nat) (hk : k < len) :
    m.getD k false = decide (Nat.Prime k) := by
  have := h.2 k hk
  by_cases hp : Nat.Prime k
  · simp only [hp, decide_True]
    rw [this]
    rw [Nat.prime_def_le_sqrt] at hp
    exact ⟨hp.1, fun d hd2 _ hdk => hp.2 d hd2 (Nat.le_sqrt.mpr hdk)⟩
  · simp only [hp, decide_False]
    cases hb : m.getD k false with
    | false => rfl
    | true =>
      exfalso
      apply hp
      rw [Nat.prime_def_le_sqrt]
      obtain ⟨h2, hall⟩ := this.mp hb
      refine ⟨h2, fun d hd2 hdk => hall d hd2 ?_ (Nat.le_sqrt.mp hdk)⟩
      by_contra hc
      have h1 : i ≤ d := not_lt.mp hc
      have h3 : i * i ≤ d * d := Nat.mul_le_mul h1 h1
      have := Nat.le_sqrt.mp hdk
      omega

theorem collectLoop_spec (marked : List Bool) :
    ∀ (idx : List Nat) (p : List Int), (∀ i ∈ idx, i < marked.length) →
      collectLoop marked idx p =
        .ok (p ++ List.map (fun i : Nat => (i : Int))
          (idx.filter (fun i => marked.getD i false))) := by
  intro idx
  induction idx with
  | nil => intro p _; simp [collectLoop]
  | cons i rest ih =>
    intro p h
    unfold collectLoop
    rw [readAt_nat marked i (h i (List.mem_cons_self i rest))]
    have hrest : ∀ j ∈ rest, j < marked.length := fun j hj => h j (List.mem_cons_of_mem i hj)
    cases hb : marked.getD i false with
    | true =>
      simp only []
      rw [ih _ hrest, List.filter_cons]
      simp only [hb, if_true, List.map_cons, List.append_assoc, List.singleton_append]
    | false =>
      simp only []
      rw [ih _ hrest, List.filter_cons]
      simp only [hb, Bool.false_eq_true, if_false]

theorem sieveWith_done (w : Int → Int) (hw : Exact64 w) (L v : Int) (hv : w (L + 1) = v)
    (h1 : 0 ≤ v) (h2 : v ≤ maxAlloc) (fuel : Nat) (hf : v.toNat + 1 ≤ fuel) :
    sieveWith w fuel L = .done (primesUpTo (v - 1)) := by
  have hA : maxAlloc = 2 ^ 48 := rfl
  have hmk : makeBools v = .ok (List.replicate v.toNat false) := by
    unfold makeBools
    have : ¬ (v < 0 ∨ maxAlloc < v) := by omega
    simp [this]
  obtain ⟨len, hlen⟩ : ∃ len : Nat, len = v.toNat := ⟨_, rfl⟩
  have hlen62 : len ≤ 2 ^ 62 := by
    rw [hA] at h2; norm_num at h2 ⊢; omega
  have hfuel : len + 1 ≤ fuel := by omega
  unfold sieveWith
  rw [hv, hmk, ← hlen]
  simp only []
  obtain ⟨m1, hm1, hm1l, hm1k⟩ := initLoop_spec w hw fuel 2 (List.replicate len false)
    (by simpa using hlen62) (by simp; omega) (by omega)
  simp only [Nat.cast_ofNat] at hm1
  rw [hm1]
  simp only []
  have hm1len : m1.length = len := by simpa using hm1l
  have hs : Sifted len 2 m1 := by
    refine ⟨hm1len, fun k hk => ?_⟩
    rw [hm1k k]
    simp only [List.length_replicate]
    constructor
    · intro h
      by_cases h2k : 2 ≤ k
      · exact ⟨h2k, fun d hd2 hd => by omega⟩
      · have : ¬ (2 ≤ k ∧ k < len) := fun hh => h2k hh.1
        simp [this] at h
    · rintro ⟨h2k, -⟩
      simp [h2k, hk]
  obtain ⟨m2, i2, hm2, hs2, hi2⟩ := markLoop_spec w hw len fuel hlen62 hfuel fuel 2 m1 hs
    (by omega) (by norm_num) (by omega) (by omega)
  simp only [Nat.cast_ofNat] at hm2
  rw [hm2]
  simp only []
  rw [collectLoop_spec m2 (List.range m2.length) [] (fun i hi => List.mem_range.mp hi)]
  simp only [List.nil_append]
  unfold primesUpTo primesBelow
  have hv1 : (v - 1 + 1).toNat = len := by rw [hlen]; congr 1; ring
  rw [hs2.1, hv1]
  refine congrArg Run.done (congrArg (List.map (fun k : Nat => (k : Int))) ?_)
  apply List.filter_congr
  intro k hk
  exact sifted_prime len i2 m2 hs2 hi2 k (List.mem_range.mp hk)

theorem wrap64_range (x : Int) : -(2 ^ 63) ≤ wrap64 x ∧ wrap64 x < 2 ^ 63 := by
  unfold wrap64
  norm_num
  omega

theorem sieve_eq (L : Int) (hL : -(2 ^ 63) ≤ L) (hL2 : L < 2 ^ 63) :
    sieve L = if -1 ≤ L ∧ L < maxAlloc then .done (primesUpTo L) else .panic .makesliceLen := by
  by_cases h : -1 ≤ L ∧ L < maxAlloc
  · rw [if_pos h]
    have hA : maxAlloc = 2 ^ 48 := rfl
    have h2 := h.2
    rw [hA] at h2
    have hv : wrap64 (L + 1) = L + 1 :=
      wrap64_exact (L + 1) (by omega) (by norm_num at h2 ⊢; omega)
    have := sieveWith_done wrap64 wrap64_exact L (L + 1) hv (by omega)
      (by rw [hA]; norm_num at h2 ⊢; omega) (sieveFuel L) (by unfold sieveFuel; omega)
    simpa using this
  · rw [if_neg h]
    have hA : maxAlloc = 2 ^ 48 := rfl
    unfold sieve sieveWith
    have hd : wrap64 (L + 1) < 0 ∨ maxAlloc < wrap64 (L + 1) := by
      unfold wrap64
      rw [hA] at h ⊢
      norm_num at h hL hL2 ⊢
      omega
    have : makeBools (wrap64 (L + 1)) = .error .makesliceLen := by
      unfold makeBools
      rw [if_pos hd]
    rw [this]


/-- Whatever the limit, a list returned by the sieve is the list of primes up
    to some bound. -/
theorem sieve_done_shape (L : Int) (ps : List Int) (h : sieve L = .done ps) :
    ∃ L2 : Int, ps = primesUpTo L2 ∧ (-(2 ^ 63) ≤ L → L < 2 ^ 63 → L2 = L) := by
  by_cases hr : -(2 ^ 63) ≤ L ∧ L < 2 ^ 63
  · rw [sieve_eq L hr.1 hr.2] at h
    by_cases hc : -1 ≤ L ∧ L < maxAlloc
    · rw [if_pos hc] at h
      exact ⟨L, (Run.done.inj h).symm, fun _ _ => rfl⟩
    · rw [if_neg hc] at h
      cases h
  · have hmk : ∀ v, makeBools v = .error .makesliceLen ∨
        (0 ≤ v ∧ v ≤ maxAlloc ∧ makeBools v = .ok (List.replicate v.toNat false)) := by
      intro v
      unfold makeBools
      by_cases hv : v < 0 ∨ maxAlloc < v
      · left; rw [if_pos hv]
      · right; rw [if_neg hv]; exact ⟨by omega, by omega, rfl⟩
    rcases hmk (wrap64 (L + 1)) with hm | ⟨hv0, hv1, hm⟩
    · unfold sieve sieveWith at h
      rw [hm] at h
      cases h
    · by_cases hneg : L < -(2 ^ 63)
      · have hf : sieveFuel L = 0 := by
          unfold sieveFuel
          norm_num at hneg ⊢
          omega
        unfold sieve sieveWith at h
        rw [hm, hf] at h
        simp only [initLoop] at h
        cases h
      · have hbig : 2 ^ 63 ≤ L := by
          by_contra hc
          exact hr ⟨not_lt.mp hneg, not_le.mp hc⟩
        have hA : maxAlloc = 2 ^ 48 := rfl
        have := sieveWith_done wrap64 wrap64_exact L (wrap64 (L + 1)) rfl hv0 hv1
          (sieveFuel L) (by
            unfold sieveFuel
            rw [hA] at hv1
            norm_num at hbig hv1 ⊢
            omega)
        unfold sieve at h
        rw [this] at h
        exact ⟨wrap64 (L + 1) - 1, (Run.done.inj h).symm, fun _ h2 => absurd hbig (not_le.mpr h2)⟩

theorem primesBelow_succ (n : Nat) :
    primesBelow (n + 1) = primesBelow n ++ (if Nat.Prime n then [n] else []) := by
  unfold primesBelow
  rw [List.range_succ, List.filter_append]
  by_cases h : Nat.Prime n
  · simp [h]
  · simp [h]

theorem primesBelow_length (n : Nat) : (primesBelow n).length = Nat.count Nat.Prime n := by
  induction n with
  | zero => simp [primesBelow]
  | succ n ih =>
    rw [primesBelow_succ, List.length_append, ih, Nat.count_succ]
    by_cases h : Nat.Prime n
    · simp [h]
    · simp [h]

theorem mem_primesBelow (n p : Nat) : p ∈ primesBelow n ↔ Nat.Prime p ∧ p < n := by
  unfold primesBelow
  simp [List.mem_filter, and_comm]

theorem primesBelow_getD (n : Nat) :
    ∀ k, k < (primesBelow n).length →
      Nat.Prime ((primesBelow n).getD k 0) ∧
      Nat.count Nat.Prime ((primesBelow n).getD k 0) = k ∧
      (primesBelow n).getD k 0 < n := by
  induction n with
  | zero => intro k hk; simp [primesBelow] at hk
  | succ n ih =>
    intro k hk
    rw [primesBelow_succ] at hk ⊢
    by_cases hlt : k < (primesBelow n).length
    · rw [List.getD_append _ _ _ _ hlt]
      obtain ⟨h1, h2, h3⟩ := ih k hlt
      exact ⟨h1, h2, by omega⟩
    · have hge : (primesBelow n).length ≤ k := not_lt.mp hlt
      by_cases hp : Nat.Prime n
      · simp only [hp, if_true, List.length_append, List.length_singleton] at hk
        have hk' : k = (primesBelow n).length := by omega
        rw [List.getD_append_right _ _ _ _ hge]
        simp only [hp, if_true, hk', Nat.sub_self, List.getD_cons_zero]
        exact ⟨trivial, (primesBelow_length n).symm, by omega⟩
      · simp only [hp, if_false, List.length_append, List.length_nil] at hk
        omega

theorem primesBelow_sorted (n : Nat) : (primesBelow n).Pairwise (· < ·) := by
  unfold primesBelow
  exact List.Pairwise.filter _ (List.pairwise_lt_range n)

theorem primesUpTo_length (L : Int) :
    (primesUpTo L).length = (primesBelow (L + 1).toNat).length := by
  unfold primesUpTo
  simp

theorem primesUpTo_getD (L : Int) (k : Nat) :
    (primesUpTo L).getD k 0 = (((primesBelow (L + 1).toNat).getD k 0 : Nat) : Int) := by
  unfold primesUpTo
  exact List.getD_map (l := primesBelow (L + 1).toNat) (d := 0) (n := k)
    (fun k : Nat => (k : Int))

theorem mem_primesUpTo (L p : Int) :
    p ∈ primesUpTo L ↔ 0 ≤ p ∧ Nat.Prime p.toNat ∧ p ≤ L := by
  unfold primesUpTo
  rw [List.mem_map]
  constructor
  · rintro ⟨k, hk, rfl⟩
    rw [mem_primesBelow] at hk
    refine ⟨by omega, by simpa using hk.1, by omega⟩
  · rintro ⟨h0, hp, hL⟩
    refine ⟨p.toNat, ?_, by omega⟩
    rw [mem_primesBelow]
    exact ⟨hp, by omega⟩

theorem primesUpTo_sorted (L : Int) : (primesUpTo L).Pairwise (· < ·) := by
  unfold primesUpTo
  rw [List.pairwise_map]
  exact (primesBelow_sorted _).imp (fun h => by exact_mod_cast h)

/-- C1: for every sieve limit `L` whose build returns a prime list `ps` and
    every rank `n` with `0 ≤ n < len(ps)`, `NthPrime(n)` succeeds and returns
    the `n`-th prime in 0-based rank order: a prime `p` with exactly `n` primes
    below it, the only such prime, equal to Mathlib's `Nat.nth Nat.Prime n`;
    ranks 0, 1, 2, 5 and 9 give 2, 3, 5, 13 and 29. -/
theorem nthPrime_is_nth_prime (L : Int) (ps : List Int) (n : Int)
    (hb : sieve L = .done ps) (h0 : 0 ≤ n) (hn : n < ps.length) :
    ∃ p : Nat, (eratosthenesSieve.mk ps).NthPrime n = .ok (p : Int) ∧
      Nat.Prime p ∧ Nat.count Nat.Prime p = n.toNat ∧
      (∀ q : Nat, Nat.Prime q → Nat.count Nat.Prime q = n.toNat → q = p) ∧
      p = Nat.nth Nat.Prime n.toNat ∧
      (n = 0 → p = 2) ∧ (n = 1 → p = 3) ∧ (n = 2 → p = 5) ∧
      (n = 5 → p = 13) ∧ (n = 9 → p = 29) := by
  obtain ⟨L2, rfl, -⟩ := sieve_done_shape L ps hb
  have hk : n.toNat < (primesBelow (L2 + 1).toNat).length := by
    rw [← primesUpTo_length]; omega
  obtain ⟨hp, hc, -⟩ := primesBelow_getD _ _ hk
  have hnth : ∀ q : Nat, Nat.Prime q → Nat.count Nat.Prime q = n.toNat →
      q = Nat.nth Nat.Prime n.toNat := by
    intro q hq hqc
    rw [← hqc, Nat.nth_count hq]
  have hval : ∀ (r v : Nat), Nat.Prime v → Nat.count Nat.Prime v = r → n = (r : Int) →
      (primesBelow (L2 + 1).toNat).getD n.toNat 0 = v := by
    intro r v hv hvc hnr
    rw [hnth _ hp hc, hnth v hv (by rw [hvc, hnr]; simp)]
  refine ⟨(primesBelow (L2 + 1).toNat).getD n.toNat 0, ?_, hp, hc, ?_, hnth _ hp hc, ?_, ?_, ?_, ?_, ?_⟩
  · unfold eratosthenesSieve.NthPrime
    rw [if_neg (not_lt.mpr h0), if_pos hn, primesUpTo_getD]
  · intro q hq hqc
    rw [hnth q hq hqc, ← hnth _ hp hc]
  · exact fun h => hval 0 2 (by norm_num) (by decide) h
  · exact fun h => hval 1 3 (by norm_num) (by decide) h
  · exact fun h => hval 2 5 (by norm_num) (by decide) h
  · exact fun h => hval 5 13 (by norm_num) (by decide) h
  · exact fun h => hval 9 29 (by norm_num) (by decide) h

/-- Witness of C1: rank 9 on the list built for limit 30. -/
theorem nthPrime_is_nth_prime_witness :
    ∃ p : Nat, (eratosthenesSieve.mk [2, 3, 5, 7, 11, 13, 17, 19, 23, 29]).NthPrime 9
        = .ok (p : Int) ∧
      Nat.Prime p ∧ Nat.count Nat.Prime p = (9 : Int).toNat ∧
      (∀ q : Nat, Nat.Prime q → Nat.count Nat.Prime q = (9 : Int).toNat → q = p) ∧
      p = Nat.nth Nat.Prime (9 : Int).toNat ∧
      ((9 : Int) = 0 → p = 2) ∧ ((9 : Int) = 1 → p = 3) ∧ ((9 : Int) = 2 → p = 5) ∧
      ((9 : Int) = 5 → p = 13) ∧ ((9 : Int) = 9 → p = 29) :=
  nthPrime_is_nth_prime 30 [2, 3, 5, 7, 11, 13, 17, 19, 23, 29] 9 (by decide) (by decide)
    (by decide)

/-- C2: for every sieve limit `L ≥ 0` (a 64-bit integer), the build returns a
    list whenever the array can be allocated, and a returned list contains
    exactly the primes `≤ L`: an integer occurs in it if and only if it is
    prime and `≤ L`. -/
theorem sieve_lists_exactly_primes (L : Int) (h0 : 0 ≤ L) (h63 : L < 2 ^ 63) :
    (L < maxAlloc → ∃ ps, sieve L = .done ps) ∧
    ∀ ps, sieve L = .done ps → ∀ p : Int, p ∈ ps ↔ (Nat.Prime p.toNat ∧ p ≤ L) := by
  constructor
  · intro hA
    exact ⟨primesUpTo L, by rw [sieve_eq L (by omega) h63, if_pos ⟨by omega, hA⟩]⟩
  · intro ps hb p
    obtain ⟨L2, rfl, hL2⟩ := sieve_done_shape L ps hb
    rw [hL2 (by omega) h63, mem_primesUpTo]
    constructor
    · exact fun h => ⟨h.2.1, h.2.2⟩
    · intro h
      refine ⟨?_, h.1, h.2⟩
      by_contra hneg
      have : p.toNat = 0 := by omega
      rw [this] at h
      exact Nat.not_prime_zero h.1

/-- Witness of C2 at limit 30. -/
theorem sieve_lists_exactly_primes_witness :
    (0 : Int) ≤ 30 ∧ (30 : Int) < 2 ^ 63 ∧
    ((30 : Int) < maxAlloc → ∃ ps, sieve 30 = .done ps) ∧
    ∀ ps, sieve 30 = .done ps → ∀ p : Int, p ∈ ps ↔ (Nat.Prime p.toNat ∧ p ≤ 30) :=
  ⟨by decide, by decide, sieve_lists_exactly_primes 30 (by decide) (by decide)⟩

/-- C3: for every sieve limit `L` whose build returns a prime list `ps`, and
    all indices `i < j < len(ps)`, the element at `i` is strictly smaller than
    the element at `j`; the list has no duplicates. -/
theorem prime_list_strictly_ascending (L : Int) (ps : List Int) (hb : sieve L = .done ps)
    (i j : Nat) (hij : i < j) (hj : j < ps.length) :
    ps[i] < ps[j] ∧ ps.Nodup := by
  obtain ⟨L2, rfl, -⟩ := sieve_done_shape L ps hb
  have hs := primesUpTo_sorted L2
  refine ⟨List.pairwise_iff_getElem.mp hs i j (by omega) hj hij, ?_⟩
  exact hs.imp (fun h => ne_of_lt h)

/-- Witness of C3: indices 3 and 7 of the list built for limit 30. -/
theorem prime_list_strictly_ascending_witness :
    [2, 3, 5, 7, 11, 13, 17, 19, 23, (29 : Int)][3] < [2, 3, 5, 7, 11, 13, 17, 19, 23, (29 : Int)][7] ∧
    [2, 3, 5, 7, 11, 13, 17, 19, 23, (29 : Int)].Nodup :=
  prime_list_strictly_ascending 30 [2, 3, 5, 7, 11, 13, 17, 19, 23, 29] (by decide) 3 7
    (by decide) (by decide)

/-- C5: on every service, `NthPrime(n)` with `n < 0` stops with the
    negative-index failure and returns no value; so does `NthPrime(-1)`. -/
theorem nthPrime_negative (s : eratosthenesSieve) (n : Int) (hn : n < 0) :
    s.NthPrime n = .error .negativeIndex ∧ s.NthPrime (-1) = .error .negativeIndex := by
  unfold eratosthenesSieve.NthPrime
  rw [if_pos hn, if_pos (by decide)]
  exact ⟨rfl, rfl⟩

/-- Witness of C5: rank `-7` on the service built for limit 30. -/
theorem nthPrime_negative_witness :
    (eratosthenesSieve.mk [2, 3, 5, 7, 11, 13, 17, 19, 23, 29]).NthPrime (-7)
      = .error .negativeIndex ∧
    (eratosthenesSieve.mk [2, 3, 5, 7, 11, 13, 17, 19, 23, 29]).NthPrime (-1)
      = .error .negativeIndex :=
  nthPrime_negative ⟨[2, 3, 5, 7, 11, 13, 17, 19, 23, 29]⟩ (-7) (by decide)

/-- C6: on every service, `NthPrime(n)` with `n ≥ len(primes)` stops with the
    index-out-of-range failure, which is not the negative-index failure, and
    `NthPrime` fails only for `n < 0` or `n ≥ len(primes)`. -/
theorem nthPrime_out_of_range (s : eratosthenesSieve) (n : Int)
    (hn : (s.primes.length : Int) ≤ n) :
    s.NthPrime n = .error .indexOutOfRange ∧
    Panic.indexOutOfRange ≠ Panic.negativeIndex ∧
    ∀ m : Int, (∃ e, s.NthPrime m = .error e) ↔ (m < 0 ∨ (s.primes.length : Int) ≤ m) := by
  refine ⟨?_, by decide, ?_⟩
  · unfold eratosthenesSieve.NthPrime
    rw [if_neg (by omega), if_neg (by omega)]
  · intro m
    unfold eratosthenesSieve.NthPrime
    by_cases h1 : m < 0
    · simp [h1]
    · by_cases h2 : m < (s.primes.length : Int)
      · simp [h1, h2]
      · simp only [h1, h2, if_false, false_or]
        exact ⟨fun _ => not_lt.mp h2, fun _ => ⟨_, rfl⟩⟩

/-- Witness of C6: rank 10 on the ten-element list built for limit 30. -/
theorem nthPrime_out_of_range_witness :
    (eratosthenesSieve.mk [2, 3, 5, 7, 11, 13, 17, 19, 23, 29]).NthPrime 10
      = .error .indexOutOfRange :=
  (nthPrime_out_of_range ⟨[2, 3, 5, 7, 11, 13, 17, 19, 23, 29]⟩ 10 (by decide)).1

theorem bitLen_pow_le : ∀ (fuel m : Nat), m ≠ 0 → 2 ^ (F64.bitLen fuel m - 1) ≤ m := by
  intro fuel
  induction fuel with
  | zero => intro m hm; simp [F64.bitLen]; omega
  | succ fuel ih =>
    intro m hm
    unfold F64.bitLen
    rw [if_neg hm, Nat.add_sub_cancel]
    by_cases h2 : m / 2 = 0
    · have : F64.bitLen fuel (m / 2) = 0 := by
        rw [h2]; cases fuel <;> simp [F64.bitLen]
      rw [this]; simp; omega
    · have := ih (m / 2) h2
      by_cases hb : F64.bitLen fuel (m / 2) = 0
      · rw [hb]; simp; omega
      · have hpow : 2 ^ F64.bitLen fuel (m / 2) = 2 * 2 ^ (F64.bitLen fuel (m / 2) - 1) := by
          rw [← pow_succ']
          congr 1
          omega
        rw [hpow]
        omega

theorem scaleRound_ne_zero (m : Nat) (e e1 : Int) (sticky : Bool) (hm : m ≠ 0)
    (he : e1 ≤ e + (F64.digits m : Int) - 1) : F64.scaleRound m e e1 sticky ≠ 0 := by
  unfold F64.scaleRound
  by_cases h : e1 ≤ e
  · rw [if_pos h, Nat.shiftLeft_eq]
    exact Nat.mul_ne_zero hm (by positivity)
  · rw [if_neg h]
    simp only []
    have hsh : (e1 - e).toNat ≤ F64.digits m - 1 := by omega
    have hpow : 2 ^ (e1 - e).toNat ≤ m :=
      le_trans (Nat.pow_le_pow_right (by norm_num) hsh) (bitLen_pow_le m m hm)
    have hk : m >>> (e1 - e).toNat ≠ 0 := by
      rw [Nat.shiftRight_eq_div_pow]
      exact Nat.ne_of_gt (Nat.div_pos hpow (by positivity))
    split_ifs
    · exact Nat.succ_ne_zero _
    · exact hk

/-- Rounding a nonzero magnitude that is not below the subnormal range gives
    a nonzero float of the same sign. -/
theorem round_shape (neg : Bool) (m : Nat) (e : Int) (sticky : Bool) (hm : m ≠ 0)
    (he : -1074 ≤ e + (F64.digits m : Int) - 1) :
    F64.round neg m e sticky = .inf neg ∨
      ∃ q e2, q ≠ 0 ∧ F64.round neg m e sticky = .fin neg q e2 := by
  unfold F64.round
  rw [if_neg hm]
  simp only []
  split_ifs with h1 h2 h3
  · exact Or.inl rfl
  · exact Or.inr ⟨_, _, by norm_num, rfl⟩
  · exact Or.inl rfl
  · refine Or.inr ⟨_, _, ?_, rfl⟩
    apply scaleRound_ne_zero _ _ _ _ hm
    omega

theorem digits_pos (m : Nat) (hm : m ≠ 0) : 1 ≤ F64.digits m := by
  unfold F64.digits
  cases m with
  | zero => exact absurd rfl hm
  | succ k => unfold F64.bitLen; rw [if_neg hm]; omega

/-- Conversion of a negative integer gives a negative float. -/
theorem ofInt_neg_shape (n : Int) (hn : n < 0) :
    F64.ofInt n = .inf true ∨ ∃ q e, q ≠ 0 ∧ F64.ofInt n = .fin true q e := by
  have hm : n.natAbs ≠ 0 := by omega
  have hd : decide (n < 0) = true := by simpa using hn
  unfold F64.ofInt
  rw [hd]
  apply round_shape true n.natAbs 0 false hm
  have := digits_pos _ hm
  omega

theorem ofInt_zero : F64.ofInt 0 = .fin false 0 (-1074) := by decide

theorem log_of_negative (x : F64)
    (hx : x = .inf true ∨ ∃ q e, q ≠ 0 ∧ x = .fin true q e) : F64.log x = .nan := by
  rcases hx with rfl | ⟨q, e, hq, rfl⟩
  · unfold F64.log
    simp only []
    rw [ofInt_zero]
    simp [F64.lt]
  · unfold F64.log
    simp only []
    rw [ofInt_zero]
    have : F64.lt (.fin true q e) (.fin false 0 (-1074)) = true := by
      unfold F64.lt
      simp only [F64.signed, if_true, Nat.zero_shiftLeft, Bool.false_eq_true, if_false,
        decide_eq_true_eq, Nat.cast_zero]
      rw [Nat.shiftLeft_eq]
      have : 0 < q * 2 ^ (e - min e (-1074)).toNat := Nat.mul_pos (Nat.pos_of_ne_zero hq) (by positivity)
      omega
    rw [this]
    simp

theorem toInt64_range (x : F64) : -(2 ^ 63) ≤ F64.toInt64 x ∧ F64.toInt64 x < 2 ^ 63 := by
  have hI : F64.int64Indefinite = -(2 ^ 63) := rfl
  cases x with
  | nan => unfold F64.toInt64; rw [hI]; norm_num
  | inf s => unfold F64.toInt64; rw [hI]; norm_num
  | fin s m e =>
    unfold F64.toInt64
    simp only []
    split_ifs with h1 h2 h3
    · exact h2
    · rw [hI]; norm_num
    · exact h3
    · rw [hI]; norm_num

theorem limitOf_range (n : Int) : -(2 ^ 63) ≤ limitOf n ∧ limitOf n < 2 ^ 63 :=
  toInt64_range _

theorem limitOf_negative (N : Int) (h1 : -(2 ^ 63) ≤ N) (h2 : N < -1) :
    limitOf N = -(2 ^ 63) := by
  have hw : wrap64 (N + 1) = N + 1 := wrap64_exact (N + 1) (by omega) (by omega)
  have hlog : F64.log (F64.ofInt (N + 1)) = .nan :=
    log_of_negative _ (ofInt_neg_shape (N + 1) (by omega))
  unfold limitOf
  simp only []
  rw [hw, hlog]
  have h3 : F64.log .nan = .nan := rfl
  have h4 : F64.add .nan .nan = .nan := rfl
  rw [h3, h4]
  have h5 : ∀ x, F64.mul x .nan = .nan := by
    intro x; cases x <;> rfl
  rw [h5]
  rfl

set_option maxRecDepth 1000000

set_option exponentiation.threshold 4096

/-- C4 (evaluation at the failing inputs): the build for `N = 1` returns the
    empty list and the build for `N = 2` a list of two primes, so the list is
    not longer than `N`; the build for `N = 0` does not return a list. -/
theorem findPrimes_small_rank_too_short :
    findPrimes 1 = .done [] ∧ findPrimes 2 = .done [2, 3] ∧
    findPrimes 0 = .panic .makesliceLen := by
  refine ⟨?_, ?_, ?_⟩ <;> decide

/-- C7 (evaluation at the failing inputs): for `N = 0 .. 4` the limit is the
    value of the formula itself, never raised to 15: it is `-2^63` for
    `N = 0` (where `ln (ln 1)` is `-Inf`) and 1, 4, 7, 11 for `N = 1 .. 4`;
    the list built for `N = 4` stops at 11 and does not hold the sixth
    prime 13. -/
theorem limitOf_small_rank_has_no_floor :
    limitOf 0 = -(2 ^ 63) ∧ limitOf 1 = 1 ∧ limitOf 2 = 4 ∧ limitOf 3 = 7 ∧
    limitOf 4 = 11 ∧ findPrimes 4 = .done [2, 3, 5, 7, 11] ∧
    findPrimes 3 = .done [2, 3, 5, 7] := by
  refine ⟨?_, ?_, ?_, ?_, ?_, ?_, ?_⟩ <;> decide

/-- C8 (code bug): the build for `N = 0` does not succeed.  The limit computed
    for it is `int64(-Inf) = -2^63`, so `make` stops with the makeslice
    panic: no list is returned, in particular no one-element list, and the
    constructor run on that build yields no service on which `NthPrime(5)`
    could be called. -/
theorem findPrimes_zero_returns_no_list :
    limitOf 0 = -(2 ^ 63) ∧
    findPrimes 0 = .panic .makesliceLen ∧
    (∀ ps : List Int, findPrimes 0 ≠ .done ps) ∧
    Run.map (fun p => eratosthenesSieve.mk p) (findPrimes 0) = .panic .makesliceLen := by
  have h : findPrimes 0 = .panic .makesliceLen := by decide
  refine ⟨by decide, h, fun ps hc => ?_, ?_⟩
  · rw [h] at hc
    cases hc
  · rw [h]
    rfl

/-- C9 (counterexample): the build for `N = -1` stops with the makeslice
    failure, which is not the negative-index failure. -/
theorem findPrimes_minus_one_not_invalid_argument :
    findPrimes (-1) = .panic .makesliceLen ∧ findPrimes (-1) ≠ .panic .negativeIndex := by
  refine ⟨?_, ?_⟩ <;> decide

/-- C9 (amended): for every negative 64-bit `N` the build stops with the
    runtime's makeslice failure instead of returning a list; and the build
    for any `N` fails with no other failure: its loops run to their end and
    no index is out of range. -/
theorem findPrimes_fails_only_in_makeslice (N : Int) (h1 : -(2 ^ 63) ≤ N) (h2 : N < 2 ^ 63) :
    (N < 0 → findPrimes N = .panic .makesliceLen) ∧
    (∀ p, findPrimes N = .panic p → p = .makesliceLen) ∧
    findPrimes N ≠ .outOfFuel := by
  have hshape : findPrimes N = .panic .makesliceLen ∨ ∃ ps, findPrimes N = .done ps := by
    unfold findPrimes
    rw [sieve_eq _ (limitOf_range N).1 (limitOf_range N).2]
    split_ifs
    · exact Or.inr ⟨_, rfl⟩
    · exact Or.inl rfl
  refine ⟨?_, ?_, ?_⟩
  · intro hneg
    have hlim : limitOf N = -(2 ^ 63) := by
      by_cases hm1 : N = -1
      · subst hm1; decide
      · exact limitOf_negative N h1 (by omega)
    unfold findPrimes
    rw [hlim]
    decide
  · intro p hp
    rcases hshape with h | ⟨ps, h⟩
    · rw [h] at hp; exact (Run.panic.inj hp).symm
    · rw [h] at hp; cases hp
  · rcases hshape with h | ⟨ps, h⟩
    · rw [h]; exact fun hc => by cases hc
    · rw [h]; exact fun hc => by cases hc

/-- Witness of C9 (amended) at `N = -5`. -/
theorem findPrimes_fails_only_in_makeslice_witness :
    findPrimes (-5) = .panic .makesliceLen :=
  (findPrimes_fails_only_in_makeslice (-5) (by decide) (by decide)).1 (by decide)

/-! ### Counting primes

The number of primes below 179,424,673 is obtained by Meissel's method: the
count of numbers free of small prime factors (`phi`) and the count of products
of two larger primes (`pairSum`) are proved correct and then evaluated. -/

set_option maxRecDepth 512

set_option exponentiation.threshold 256

theorem isPrimeBy_nil (n : Nat) : isPrimeBy [] n = true := rfl

theorem blt_eq_decide (a b : Nat) : Nat.blt a b = decide (a < b) := by
  by_cases h : a < b
  · have h1 : Nat.ble (a + 1) b = true := Nat.ble_eq_true_of_le h
    simpa [Nat.blt, h] using h1
  · have h1 : Nat.ble (a + 1) b = false := by
      cases hb : Nat.ble (a + 1) b with
      | false => rfl
      | true => exact absurd (Nat.le_of_ble_eq_true hb) h
    simpa [Nat.blt, h] using h1

theorem beq_eq_decide (a b : Nat) : Nat.beq a b = decide (a = b) := by
  by_cases h : a = b
  · subst h
    simp [Nat.beq_refl]
  · cases hb : Nat.beq a b with
    | false => simp [h]
    | true => exact absurd (Nat.eq_of_beq_eq_true hb) h

theorem isPrimeBy_cons (p : Nat) (l : List Nat) (n : Nat) :
    isPrimeBy (p :: l) n =
      if n < p * p then true else if n % p = 0 then false else isPrimeBy l n := by
  have hdef : isPrimeBy (p :: l) n =
      Bool.rec (motive := fun _ => Bool)
        (Bool.rec (motive := fun _ => Bool) (isPrimeBy l n) false (Nat.beq (n % p) 0)) true
        (Nat.blt n (p * p)) := rfl
  rw [hdef, blt_eq_decide, beq_eq_decide]
  by_cases h1 : n < p * p
  · simp [h1]
  · by_cases h2 : n % p = 0
    · simp [h1, h2]
    · simp [h1, h2]

theorem primesFrom_of_le (a c : Nat) (h : c ≤ a) : primesFrom a c = [] := by
  unfold primesFrom
  rw [Nat.sub_eq_zero_of_le h]
  rfl

theorem primesFrom_of_lt (a c : Nat) (h : a < c) :
    primesFrom a c =
      if Nat.Prime a then a :: primesFrom (a + 1) c else primesFrom (a + 1) c := by
  unfold primesFrom
  have : c - a = (c - (a + 1)) + 1 := by omega
  rw [this, List.range'_succ, List.filter_cons]
  by_cases hp : Nat.Prime a
  · simp [hp]
  · simp [hp]

theorem primesBelow_eq_primesFrom (c : Nat) : primesBelow c = primesFrom 0 c := by
  unfold primesBelow primesFrom
  rw [List.range_eq_range', Nat.sub_zero]

theorem prime_of_no_small_factor (n a : Nat) (h2 : 2 ≤ n) (hlt : n < a * a)
    (h : ∀ q, Nat.Prime q → q < a → ¬ q ∣ n) : Nat.Prime n := by
  rw [Nat.prime_def_le_sqrt]
  refine ⟨h2, fun m hm2 hms hmd => ?_⟩
  have hmm : m * m ≤ n := Nat.le_sqrt.mp hms
  have hma : m < a := by
    by_contra hc
    have h1 : a ≤ m := not_lt.mp hc
    have := Nat.mul_le_mul h1 h1
    omega
  have hmf : Nat.Prime m.minFac := Nat.minFac_prime (by omega)
  exact h m.minFac hmf (lt_of_le_of_lt (Nat.minFac_le (by omega)) hma)
    (dvd_trans (Nat.minFac_dvd m) hmd)

theorem isPrimeBy_primesFrom (c n : Nat) (h2 : 2 ≤ n) (hn : n < c * c) :
    ∀ (k a : Nat), a + k = c → (∀ q, Nat.Prime q → q < a → ¬ q ∣ n) →
      (isPrimeBy (primesFrom a c) n = true ↔ Nat.Prime n) := by
  intro k
  induction k with
  | zero =>
    intro a hak h
    rw [primesFrom_of_le a c (by omega), isPrimeBy_nil]
    have : a = c := by omega
    subst this
    exact ⟨fun _ => prime_of_no_small_factor n a h2 hn h, fun _ => rfl⟩
  | succ k ih =>
    intro a hak h
    rw [primesFrom_of_lt a c (by omega)]
    by_cases hp : Nat.Prime a
    · rw [if_pos hp, isPrimeBy_cons]
      by_cases h1 : n < a * a
      · rw [if_pos h1]
        exact ⟨fun _ => prime_of_no_small_factor n a h2 h1 h, fun _ => rfl⟩
      · rw [if_neg h1]
        by_cases hd : n % a = 0
        · rw [if_pos hd]
          constructor
          · intro hf; cases hf
          · intro hpn
            exfalso
            have hdvd : a ∣ n := Nat.dvd_of_mod_eq_zero hd
            rcases (Nat.dvd_prime hpn).mp hdvd with h1a | han
            · exact hp.one_lt.ne' h1a
            · have : a ≤ a * a := Nat.le_mul_self a
              have := hp.two_le
              subst han
              have : a * 2 ≤ a * a := Nat.mul_le_mul_left a hp.two_le
              omega
        · rw [if_neg hd]
          apply ih (a + 1) (by omega)
          intro q hq hqa
          rcases Nat.lt_succ_iff_lt_or_eq.mp hqa with hlt | heq
          · exact h q hq hlt
          · subst heq
            exact fun hd2 => hd (Nat.mod_eq_zero_of_dvd hd2)
    · rw [if_neg hp]
      apply ih (a + 1) (by omega)
      intro q hq hqa
      rcases Nat.lt_succ_iff_lt_or_eq.mp hqa with hlt | heq
      · exact h q hq hlt
      · subst heq; exact absurd hq hp

/-- Trial division by all primes below `c` decides primality below `c * c`. -/
theorem isPrimeBy_spec (c n : Nat) (h2 : 2 ≤ n) (hn : n < c * c) :
    isPrimeBy (primesBelow c) n = true ↔ Nat.Prime n := by
  rw [primesBelow_eq_primesFrom]
  exact isPrimeBy_primesFrom c n h2 hn c 0 (by omega) (fun q _ hq => absurd hq (Nat.not_lt_zero q))

theorem primesBelow_eq_filter (c N : Nat) (hN : N ≤ c * c) :
    primesBelow N =
      (List.range N).filter (fun n => decide (2 ≤ n) && isPrimeBy (primesBelow c) n) := by
  rw [show primesBelow N = (List.range N).filter (fun k => decide (Nat.Prime k)) from rfl]
  apply List.filter_congr
  intro n hn
  have hn2 : n < N := List.mem_range.mp hn
  by_cases h2 : 2 ≤ n
  · have := isPrimeBy_spec c n h2 (by omega)
    by_cases hp : Nat.Prime n
    · simp [h2, hp, this.mpr hp]
    · have hf : isPrimeBy (primesBelow c) n = false := by
        cases hb : isPrimeBy (primesBelow c) n with
        | false => rfl
        | true => exact absurd (this.mp hb) hp
      simp [h2, hp, hf]
  · have hp : ¬ Nat.Prime n := fun hp => h2 hp.two_le
    simp [h2, hp]

theorem natRec_force {α : Type} (f : Nat → α) (n : Nat) :
    Nat.rec (motive := fun _ => α) (f 0) (fun k _ => f (Nat.succ k)) n = f n := by
  cases n <;> rfl

theorem phi_nil (y : Nat) : phi [] y = y := rfl

theorem phi_cons (p : Nat) (l : List Nat) (y : Nat) :
    phi (p :: l) y = if y < p then 1 else phi l y - phi l (y / p) := by
  have hdef : phi (p :: l) y =
      Bool.rec (motive := fun _ => Nat)
        (Nat.sub (phi l y)
          (Nat.rec (motive := fun _ => Nat) (phi l 0) (fun k _ => phi l (Nat.succ k)) (y / p)))
        1 (Nat.blt y p) := rfl
  rw [hdef, natRec_force (phi l), blt_eq_decide]
  by_cases h : y < p
  · simp [h]
  · simp [h]

theorem roughCount_nil (y : Nat) : roughCount [] y = y := by
  unfold roughCount
  simp

theorem roughCount_congr (l1 l2 : List Nat) (h : ∀ q, q ∈ l1 ↔ q ∈ l2) (y : Nat) :
    roughCount l1 y = roughCount l2 y := by
  unfold roughCount
  congr 1
  apply Finset.filter_congr
  intro n _
  constructor
  · intro h1 q hq; exact h1 q ((h q).mpr hq)
  · intro h1 q hq; exact h1 q ((h q).mp hq)

theorem roughCount_cons (p : Nat) (l : List Nat) (y : Nat) (hp : Nat.Prime p)
    (hl : ∀ q ∈ l, Nat.Prime q ∧ q ≠ p) :
    roughCount (p :: l) y + roughCount l (y / p) = roughCount l y := by
  unfold roughCount
  have h1 : (Finset.Icc 1 y).filter (fun n => ∀ q ∈ p :: l, ¬ q ∣ n) =
      ((Finset.Icc 1 y).filter (fun n => ∀ q ∈ l, ¬ q ∣ n)).filter (fun n => ¬ p ∣ n) := by
    rw [Finset.filter_filter]
    apply Finset.filter_congr
    intro n _
    simp only [List.forall_mem_cons]
    exact and_comm
  have h2 : ((Finset.Icc 1 (y / p)).filter (fun n => ∀ q ∈ l, ¬ q ∣ n)).card =
      (((Finset.Icc 1 y).filter (fun n => ∀ q ∈ l, ¬ q ∣ n)).filter (fun n => p ∣ n)).card := by
    rw [← Finset.card_image_of_injective (f := fun m => p * m) _
      (fun a b hab => Nat.eq_of_mul_eq_mul_left hp.pos hab)]
    congr 1
    ext n
    simp only [Finset.mem_image, Finset.mem_filter, Finset.mem_Icc]
    constructor
    · rintro ⟨m, ⟨⟨hm1, hm2⟩, hm3⟩, rfl⟩
      refine ⟨⟨⟨Nat.mul_pos hp.pos hm1, ?_⟩, ?_⟩, Dvd.intro m rfl⟩
      · calc p * m ≤ p * (y / p) := Nat.mul_le_mul_left p hm2
          _ ≤ y := Nat.mul_div_le y p
      · intro q hq hqd
        obtain ⟨hqp, hne⟩ := hl q hq
        have hcop : Nat.Coprime q p := (Nat.coprime_primes hqp hp).mpr hne
        exact hm3 q hq (hcop.dvd_of_dvd_mul_left hqd)
    · rintro ⟨⟨⟨hn1, hn2⟩, hn3⟩, hpn⟩
      obtain ⟨m, rfl⟩ := hpn
      refine ⟨m, ⟨⟨?_, ?_⟩, ?_⟩, rfl⟩
      · rcases Nat.eq_zero_or_pos m with h0 | h0
        · subst h0; simp at hn1
        · exact h0
      · exact (Nat.le_div_iff_mul_le hp.pos).mpr (by rw [Nat.mul_comm]; exact hn2)
      · intro q hq hqd
        exact hn3 q hq (Dvd.dvd.mul_left hqd p)
  rw [h1, h2, Nat.add_comm]
  exact Finset.filter_card_add_filter_neg_card_eq_card _

theorem roughCount_cutoff (l : List Nat) (y p : Nat) (h1 : 1 ≤ y) (hy : y < p)
    (hall : ∀ q, Nat.Prime q → q < p → q ∈ l) (hpr : ∀ q ∈ l, 2 ≤ q) :
    roughCount l y = 1 := by
  unfold roughCount
  have : (Finset.Icc 1 y).filter (fun n => ∀ q ∈ l, ¬ q ∣ n) = {1} := by
    ext n
    simp only [Finset.mem_filter, Finset.mem_Icc, Finset.mem_singleton]
    constructor
    · rintro ⟨⟨hn1, hn2⟩, hn3⟩
      by_contra hne
      have hmf : Nat.Prime n.minFac := Nat.minFac_prime hne
      have hle : n.minFac ≤ n := Nat.minFac_le (by omega)
      exact hn3 n.minFac (hall _ hmf (by omega)) (Nat.minFac_dvd n)
    · rintro rfl
      refine ⟨⟨le_refl 1, h1⟩, fun q hq hqd => ?_⟩
      have := hpr q hq
      have := Nat.le_of_dvd Nat.one_pos hqd
      omega
  rw [this]
  rfl

theorem primesBelow_reverse_succ (b : Nat) :
    (primesBelow (b + 1)).reverse =
      if Nat.Prime b then b :: (primesBelow b).reverse else (primesBelow b).reverse := by
  rw [primesBelow_succ]
  by_cases h : Nat.Prime b
  · simp [h]
  · simp [h]

/-- Legendre's sum over the primes below `b` counts the numbers in `1 .. y`
    that have no prime factor below `b`. -/
theorem phi_eq_roughCount (b : Nat) :
    ∀ y, 1 ≤ y → phi (primesBelow b).reverse y = roughCount (primesBelow b) y := by
  induction b with
  | zero =>
    intro y _
    have : primesBelow 0 = [] := rfl
    rw [this, List.reverse_nil, phi_nil, roughCount_nil]
  | succ b ih =>
    intro y hy
    rw [primesBelow_reverse_succ]
    by_cases hp : Nat.Prime b
    · rw [if_pos hp, phi_cons]
      have hmem : ∀ q, q ∈ b :: (primesBelow b).reverse ↔ q ∈ primesBelow (b + 1) := by
        intro q
        rw [primesBelow_succ]
        simp [hp, or_comm]
      have hrev : ∀ z, roughCount (primesBelow b).reverse z = roughCount (primesBelow b) z :=
        fun z => roughCount_congr _ _ (fun q => List.mem_reverse) z
      rw [← roughCount_congr _ _ hmem y]
      by_cases hlt : y < b
      · rw [if_pos hlt]
        symm
        apply roughCount_cutoff _ y b hy hlt
        · intro q hq hqb
          simp only [List.mem_cons, List.mem_reverse]
          exact Or.inr ((mem_primesBelow b q).mpr ⟨hq, hqb⟩)
        · intro q hq
          simp only [List.mem_cons, List.mem_reverse] at hq
          rcases hq with rfl | hq
          · exact hp.two_le
          · exact ((mem_primesBelow b q).mp hq).1.two_le
      · rw [if_neg hlt]
        have hyb : 1 ≤ y / b := (Nat.le_div_iff_mul_le hp.pos).mpr (by omega)
        rw [ih y hy, ih (y / b) hyb]
        have := roughCount_cons b (primesBelow b).reverse y hp (by
          intro q hq
          have := (mem_primesBelow b q).mp (List.mem_reverse.mp hq)
          exact ⟨this.1, by omega⟩)
        rw [hrev, hrev] at this
        omega
    · rw [if_neg hp, ih y hy]
      apply roughCount_congr
      intro q
      rw [primesBelow_succ, if_neg hp]
      simp

theorem card_primes_Icc (a c : Nat) :
    ((Finset.Icc a c).filter Nat.Prime).card =
      Nat.count Nat.Prime (c + 1) - Nat.count Nat.Prime a := by
  by_cases h : a ≤ c + 1
  · have hu : (Finset.range (c + 1)).filter Nat.Prime =
        (Finset.range a).filter Nat.Prime ∪ (Finset.Icc a c).filter Nat.Prime := by
      ext n
      simp only [Finset.mem_filter, Finset.mem_range, Finset.mem_union, Finset.mem_Icc]
      constructor
      · rintro ⟨hn, hp⟩
        by_cases hna : n < a
        · exact Or.inl ⟨hna, hp⟩
        · exact Or.inr ⟨⟨by omega, by omega⟩, hp⟩
      · rintro (⟨hn, hp⟩ | ⟨⟨_, hn⟩, hp⟩)
        · exact ⟨by omega, hp⟩
        · exact ⟨by omega, hp⟩
    have hd : Disjoint ((Finset.range a).filter Nat.Prime) ((Finset.Icc a c).filter Nat.Prime) := by
      rw [Finset.disjoint_left]
      intro n h1 h2
      simp only [Finset.mem_filter, Finset.mem_range, Finset.mem_Icc] at h1 h2
      omega
    have hc : Nat.count Nat.Prime (c + 1) = ((Finset.range (c + 1)).filter Nat.Prime).card :=
      Nat.count_eq_card_filter_range _ _
    have ha : Nat.count Nat.Prime a = ((Finset.range a).filter Nat.Prime).card :=
      Nat.count_eq_card_filter_range _ _
    rw [hc, ha, hu, Finset.card_union_of_disjoint hd]
    omega
  · have he : Finset.Icc a c = ∅ := Finset.Icc_eq_empty (by omega)
    have hm : Nat.count Nat.Prime (c + 1) ≤ Nat.count Nat.Prime a :=
      Nat.count_monotone _ (by omega)
    rw [he]
    simp
    omega

/-- The numbers of the fibre over `p`: composite, without prime factor below
    `b`, with least prime factor `p`, are the products `p * q` with `q` a prime in
    `p .. x / p`. -/
theorem card_fibre (b x p : Nat) (h3 : x < b * b * b) (hp : Nat.Prime p) (hbp : b ≤ p) :
    ((((Finset.Icc 1 x).filter (fun n => ∀ q ∈ primesBelow b, ¬ q ∣ n)).filter
        (fun n => ¬ Nat.Prime n ∧ n ≠ 1)).filter (fun n => n.minFac = p)).card =
      Nat.count Nat.Prime (x / p + 1) - Nat.count Nat.Prime p := by
  rw [← card_primes_Icc, ← Finset.card_image_of_injective (f := fun q => p * q)
    ((Finset.Icc p (x / p)).filter Nat.Prime)
    (fun a c hac => Nat.eq_of_mul_eq_mul_left hp.pos hac)]
  congr 1
  ext n
  simp only [Finset.mem_filter, Finset.mem_Icc, Finset.mem_image, mem_primesBelow]
  constructor
  · rintro ⟨⟨⟨⟨hn1, hn2⟩, hr⟩, hnp, hne⟩, hmf⟩
    have hpn : p ∣ n := hmf ▸ Nat.minFac_dvd n
    obtain ⟨q, rfl⟩ := hpn
    have hq0 : 0 < q := by
      rcases Nat.eq_zero_or_pos q with h0 | h0
      · subst h0; simp at hn1
      · exact h0
    have hq1 : q ≠ 1 := by
      rintro rfl
      rw [Nat.mul_one] at hnp
      exact hnp hp
    have hqp : Nat.Prime q := by
      by_contra hnq
      -- the least prime factor `s` of `q` is at least `p`, hence `n ≥ p * (s * s) ≥ b^3`
      have hs : Nat.Prime q.minFac := Nat.minFac_prime hq1
      have hsq : q.minFac ^ 2 ≤ q := Nat.minFac_sq_le_self hq0 hnq
      have hps : p ≤ q.minFac := by
        rw [← hmf]
        exact Nat.minFac_le_of_dvd hs.two_le (Dvd.dvd.mul_left (Nat.minFac_dvd q) p)
      have hbs : b ≤ q.minFac := le_trans hbp hps
      have h1 : b * b ≤ q.minFac ^ 2 := by
        rw [pow_two]; exact Nat.mul_le_mul hbs hbs
      have h2 : b * (b * b) ≤ p * q := Nat.mul_le_mul hbp (le_trans h1 hsq)
      rw [Nat.mul_assoc] at h3
      omega
    refine ⟨q, ⟨⟨?_, ?_⟩, hqp⟩, rfl⟩
    · rw [← hmf]
      exact Nat.minFac_le_of_dvd hqp.two_le (Dvd.intro_left p rfl)
    · exact (Nat.le_div_iff_mul_le hp.pos).mpr (by rw [Nat.mul_comm]; exact hn2)
  · rintro ⟨q, ⟨⟨hpq, hqx⟩, hqp⟩, rfl⟩
    have hle : p * q ≤ x := by
      calc p * q ≤ p * (x / p) := Nat.mul_le_mul_left p hqx
        _ ≤ x := Nat.mul_div_le x p
    refine ⟨⟨⟨⟨Nat.mul_pos hp.pos hqp.pos, hle⟩, ?_⟩, ?_, ?_⟩, ?_⟩
    · rintro s ⟨hs, hsb⟩ hsd
      rcases (Nat.Prime.dvd_mul hs).mp hsd with h | h
      · have := (Nat.prime_dvd_prime_iff_eq hs hp).mp h
        omega
      · have := (Nat.prime_dvd_prime_iff_eq hs hqp).mp h
        omega
    · exact Nat.not_prime_mul hp.one_lt.ne' hqp.one_lt.ne'
    · have := hp.two_le
      have := hqp.two_le
      intro h1
      have : 2 * 2 ≤ p * q := Nat.mul_le_mul hp.two_le hqp.two_le
      omega
    · apply le_antisymm
      · exact Nat.minFac_le_of_dvd hp.two_le (Dvd.intro q rfl)
      · have hmp : Nat.Prime (p * q).minFac :=
          Nat.minFac_prime (by
            have : 2 * 2 ≤ p * q := Nat.mul_le_mul hp.two_le hqp.two_le
            omega)
        rcases (Nat.Prime.dvd_mul hmp).mp (Nat.minFac_dvd (p * q)) with h | h
        · exact le_of_eq ((Nat.prime_dvd_prime_iff_eq hmp hp).mp h).symm
        · rw [(Nat.prime_dvd_prime_iff_eq hmp hqp).mp h]
          exact hpq

/-- Meissel's identity: counting the numbers in `1 .. x` without prime factor
    below `b`, for `x < b^3`: they are 1, the primes in `b .. x`, and the
    products of two primes that are at least `b`. -/
theorem meissel (b x e : Nat) (h1 : 1 ≤ x) (hbx : b ≤ x + 1) (h3 : x < b * b * b)
    (he : x < e * e) :
    roughCount (primesBelow b) x + Nat.count Nat.Prime b =
      1 + Nat.count Nat.Prime (x + 1) + pairTotal x b e := by
  unfold roughCount pairTotal
  set R := (Finset.Icc 1 x).filter (fun n => ∀ q ∈ primesBelow b, ¬ q ∣ n) with hR
  -- the primes of `R`
  have hprimes : R.filter Nat.Prime = (Finset.Icc b x).filter Nat.Prime := by
    ext n
    simp only [hR, Finset.mem_filter, Finset.mem_Icc, mem_primesBelow]
    constructor
    · rintro ⟨⟨⟨_, hn2⟩, hr⟩, hp⟩
      refine ⟨⟨?_, hn2⟩, hp⟩
      by_contra hlt
      exact hr n ⟨hp, by omega⟩ (dvd_refl n)
    · rintro ⟨⟨hbn, hn2⟩, hp⟩
      refine ⟨⟨⟨hp.pos, hn2⟩, ?_⟩, hp⟩
      rintro q ⟨hq, hqb⟩ hqd
      have := (Nat.prime_dvd_prime_iff_eq hq hp).mp hqd
      omega
  have hcp : (R.filter Nat.Prime).card + Nat.count Nat.Prime b =
      Nat.count Nat.Prime (x + 1) := by
    rw [hprimes, card_primes_Icc]
    have : Nat.count Nat.Prime b ≤ Nat.count Nat.Prime (x + 1) := Nat.count_monotone _ hbx
    omega
  -- the others: 1 and the composites
  have hrest : R.filter (fun n => ¬ Nat.Prime n) =
      insert 1 (R.filter (fun n => ¬ Nat.Prime n ∧ n ≠ 1)) := by
    ext n
    simp only [hR, Finset.mem_filter, Finset.mem_Icc, Finset.mem_insert, mem_primesBelow]
    constructor
    · rintro ⟨hn, hnp⟩
      by_cases h : n = 1
      · exact Or.inl h
      · exact Or.inr ⟨hn, hnp, h⟩
    · rintro (rfl | ⟨hn, hnp, _⟩)
      · refine ⟨⟨⟨le_refl 1, h1⟩, ?_⟩, Nat.not_prime_one⟩
        rintro q ⟨hq, _⟩ hqd
        have := Nat.le_of_dvd Nat.one_pos hqd
        have := hq.two_le
        omega
      · exact ⟨hn, hnp⟩
  have hcr : (R.filter (fun n => ¬ Nat.Prime n)).card =
      (R.filter (fun n => ¬ Nat.Prime n ∧ n ≠ 1)).card + 1 := by
    rw [hrest, Finset.card_insert_of_not_mem]
    simp
  -- the composites, by least prime factor
  have hfib : (R.filter (fun n => ¬ Nat.Prime n ∧ n ≠ 1)).card =
      Finset.sum ((Finset.Ico b e).filter Nat.Prime) (fun p =>
        ((R.filter (fun n => ¬ Nat.Prime n ∧ n ≠ 1)).filter (fun n => n.minFac = p)).card) := by
    apply Finset.card_eq_sum_card_fiberwise
    intro n hn
    simp only [hR, Finset.mem_filter, Finset.mem_Icc, mem_primesBelow] at hn
    obtain ⟨⟨⟨hn1, hn2⟩, hr⟩, hnp, hne⟩ := hn
    have hmp : Nat.Prime n.minFac := Nat.minFac_prime hne
    simp only [Finset.mem_filter, Finset.mem_Ico]
    refine ⟨⟨?_, ?_⟩, hmp⟩
    · by_contra hlt
      exact hr n.minFac ⟨hmp, by omega⟩ (Nat.minFac_dvd n)
    · have hsq : n.minFac ^ 2 ≤ n := Nat.minFac_sq_le_self hn1 hnp
      by_contra hge
      have hge2 : e ≤ n.minFac := not_lt.mp hge
      have := Nat.mul_le_mul hge2 hge2
      rw [pow_two] at hsq
      omega
  have hsum : Finset.sum ((Finset.Ico b e).filter Nat.Prime) (fun p =>
        ((R.filter (fun n => ¬ Nat.Prime n ∧ n ≠ 1)).filter (fun n => n.minFac = p)).card) =
      Finset.sum (Finset.Ico b e) (fun n =>
        if Nat.Prime n then Nat.count Nat.Prime (x / n + 1) - Nat.count Nat.Prime n else 0) := by
    rw [Finset.sum_filter]
    apply Finset.sum_congr rfl
    intro p hp
    by_cases hpp : Nat.Prime p
    · rw [if_pos hpp, if_pos hpp]
      exact card_fibre b x p h3 hpp (Finset.mem_Ico.mp hp).1
    · rw [if_neg hpp, if_neg hpp]
  have hsplit := Finset.filter_card_add_filter_neg_card_eq_card (s := R) Nat.Prime
  rw [← hsum, ← hfib]
  omega

theorem pairSum_zero (S D : List Nat) (x b prev N : Nat) : pairSum S D x b 0 prev N = 0 := rfl

theorem pairSum_succ (S D : List Nat) (x b f prev N : Nat) :
    pairSum S D x b (f + 1) prev N =
      if isPrimeBy S (b + f) = true then
        (N + 1 + phi D (x / (b + f)) - prev) +
          pairSum S D x b f (phi D (x / (b + f))) (N + 1 + phi D (x / (b + f)) - prev)
      else pairSum S D x b f prev N := by
  have hdef : pairSum S D x b (f + 1) prev N =
      Bool.rec (motive := fun _ => Nat) (pairSum S D x b f prev N)
        ((fun (F : Nat → Nat) =>
            Nat.rec (motive := fun _ => Nat) (F 0) (fun t _ => F (Nat.succ t))
              (phi D (x / (b + f))))
          (fun t =>
            (fun (G : Nat → Nat) =>
                Nat.rec (motive := fun _ => Nat) (G 0) (fun m _ => G (Nat.succ m))
                  (Nat.sub (Nat.add (Nat.succ N) t) prev))
              (fun m => Nat.add m (pairSum S D x b f t m))))
        (isPrimeBy S (b + f)) := rfl
  rw [hdef]
  cases isPrimeBy S (b + f) with
  | false => simp
  | true =>
    refine (natRec_force (fun t =>
      (fun (G : Nat → Nat) =>
          Nat.rec (motive := fun _ => Nat) (G 0) (fun m _ => G (Nat.succ m))
            (Nat.sub (Nat.add (Nat.succ N) t) prev))
        (fun m => Nat.add m (pairSum S D x b f t m))) _).trans ?_
    refine (natRec_force (fun m => Nat.add m (pairSum S D x b f (phi D (x / (b + f))) m))
      _).trans ?_
    simp only [if_true]
    rfl

theorem pairTotal_succ (x b f : Nat) :
    pairTotal x b (b + f + 1) = pairTotal x b (b + f) +
      (if Nat.Prime (b + f) then
        Nat.count Nat.Prime (x / (b + f) + 1) - Nat.count Nat.Prime (b + f) else 0) := by
  unfold pairTotal
  rw [Finset.sum_Ico_succ_top (Nat.le_add_right b f)]

theorem pairTotal_self (x b : Nat) : pairTotal x b b = 0 := by
  unfold pairTotal
  simp

/-- The loop invariant of `pairSum`: `T` is the argument at which the primes
    were last counted, `C` the shift between `phi D` and the prime count. -/
theorem pairSum_spec (S D : List Nat) (x b e C : Nat) (hb : 1 ≤ b)
    (hS : ∀ n, b ≤ n → n < e → (isPrimeBy S n = true ↔ Nat.Prime n))
    (hD : ∀ n, b ≤ n → n < e → Nat.Prime n →
      phi D (x / n) + C = Nat.count Nat.Prime (x / n + 1) + 1) :
    ∀ (f prev N T : Nat), b + f ≤ e → prev + C = Nat.count Nat.Prime T + 1 →
      N + Nat.count Nat.Prime (b + f) = Nat.count Nat.Prime T →
      (∀ n, b ≤ n → n < b + f → T ≤ x / n + 1) →
      pairSum S D x b f prev N = pairTotal x b (b + f) := by
  intro f
  induction f with
  | zero =>
    intro prev N T _ _ _ _
    rw [pairSum_zero, Nat.add_zero, pairTotal_self]
  | succ f ih =>
    intro prev N T hfe hprev hN hT
    have hn1 : b ≤ b + f := Nat.le_add_right b f
    have hn2 : b + f < e := by omega
    rw [pairSum_succ, ← Nat.add_assoc, pairTotal_succ]
    have hcs := Nat.count_succ Nat.Prime (b + f)
    rw [← Nat.add_assoc] at hN
    by_cases hp : Nat.Prime (b + f)
    · rw [if_pos ((hS _ hn1 hn2).mpr hp), if_pos hp]
      rw [if_pos hp] at hcs
      have hph := hD _ hn1 hn2 hp
      have hTle : T ≤ x / (b + f) + 1 := hT _ hn1 (by omega)
      have hmono : Nat.count Nat.Prime T ≤ Nat.count Nat.Prime (x / (b + f) + 1) :=
        Nat.count_monotone _ hTle
      have hN2 : N + 1 + phi D (x / (b + f)) - prev =
          Nat.count Nat.Prime (x / (b + f) + 1) - Nat.count Nat.Prime (b + f) := by omega
      rw [hN2]
      rw [ih (phi D (x / (b + f)))
        (Nat.count Nat.Prime (x / (b + f) + 1) - Nat.count Nat.Prime (b + f))
        (x / (b + f) + 1) (by omega) hph (by omega) (by
          intro n hbn hnf
          have : x / (b + f) ≤ x / n := Nat.div_le_div_left (by omega) (by omega)
          omega)]
      omega
    · have hnp : ¬ isPrimeBy S (b + f) = true := fun h => hp ((hS _ hn1 hn2).mp h)
      rw [if_neg hnp, if_neg hp]
      rw [if_neg hp] at hcs
      rw [ih prev N T (by omega) hprev (by omega) (fun n hbn hnf => hT n hbn (by omega))]
      rfl

/-- Legendre's formula: below `c * c` the prime count is `phi` over the primes
    below `c`, shifted by their number. -/
theorem legendre (c y : Nat) (h1 : 1 ≤ y) (hcy : c ≤ y + 1) (hy : y < c * c) :
    phi (primesBelow c).reverse y + Nat.count Nat.Prime c =
      Nat.count Nat.Prime (y + 1) + 1 := by
  have hc : 1 ≤ c := by
    by_contra h
    have : c = 0 := by omega
    subst this
    omega
  have h3 : y < c * c * c := lt_of_lt_of_le hy (Nat.le_mul_of_pos_right _ hc)
  have := meissel c y c h1 hcy h3 hy
  rw [pairTotal_self] at this
  rw [phi_eq_roughCount c y h1]
  omega

/-- The pair sum, started at `e`, is the number of products of two primes
    whose smaller factor lies in `b .. e - 1`. -/
theorem pairSum_total (c b e x : Nat) (hc : 2 ≤ c) (hcb : c ≤ b) (hbe : b ≤ e)
    (he1 : (e - 1) * (e - 1) ≤ x) (hec : e ≤ c * c) (hxb : x / b < c * c) :
    pairSum (primesBelow c) (primesBelow c).reverse x b (e - b)
      (phi (primesBelow c).reverse (e - 1)) 0 = pairTotal x b e := by
  have hquot : ∀ n, b ≤ n → n < e → e - 1 ≤ x / n := by
    intro n hbn hne
    rw [Nat.le_div_iff_mul_le (by omega)]
    calc (e - 1) * n ≤ (e - 1) * (e - 1) := Nat.mul_le_mul_left _ (by omega)
      _ ≤ x := he1
  have hcc : c ≤ c * c := Nat.le_mul_self c
  have := pairSum_spec (primesBelow c) (primesBelow c).reverse x b e (Nat.count Nat.Prime c)
    (by omega)
    (fun n hbn hne => isPrimeBy_spec c n (by omega) (by omega))
    (fun n hbn hne _ => legendre c (x / n) (by have := hquot n hbn hne; omega)
      (by have := hquot n hbn hne; omega)
      (lt_of_le_of_lt (Nat.div_le_div_left hbn (by omega)) hxb))
    (e - b) (phi (primesBelow c).reverse (e - 1)) 0 e (by omega)
    (by
      have := legendre c (e - 1) (by omega) (by omega) (by omega)
      rw [show e - 1 + 1 = e by omega] at this
      exact this)
    (by rw [show b + (e - b) = e by omega]; omega)
    (fun n hbn hne => by have := hquot n hbn (by omega); omega)
  rw [this, show b + (e - b) = e by omega]

theorem pairTotal_split (x b m e : Nat) (h1 : b ≤ m) (h2 : m ≤ e) :
    pairTotal x b m + pairTotal x m e = pairTotal x b e := by
  unfold pairTotal
  exact Finset.sum_Ico_consecutive _ h1 h2

set_option maxRecDepth 100000

theorem primesBelow_24 : primesBelow 24 = [2, 3, 5, 7, 11, 13, 17, 19, 23] := by decide

theorem smallPrimes_filter :
    (List.range 569).filter
      (fun n => decide (2 ≤ n) && isPrimeBy [2, 3, 5, 7, 11, 13, 17, 19, 23] n) = smallPrimes := by
  decide!

theorem primesBelow_569 : primesBelow 569 = smallPrimes := by
  rw [primesBelow_eq_filter 24 569 (by norm_num), primesBelow_24]
  exact smallPrimes_filter

theorem count_569 : Nat.count Nat.Prime 569 = 103 := by
  rw [← primesBelow_length, primesBelow_569]
  rfl

theorem phi_value : phi smallPrimes.reverse 179424672 = 15938117 := by decide!

theorem pairSum_value_low :
    pairSum smallPrimes smallPrimes.reverse 179424672 569 (2200 - 569)
      (phi smallPrimes.reverse (2200 - 1)) 0 = 3108596 := by decide!

theorem pairSum_value_mid :
    pairSum smallPrimes smallPrimes.reverse 179424672 2200 (5500 - 2200)
      (phi smallPrimes.reverse (5500 - 1)) 0 = 1844805 := by decide!

theorem pairSum_value_high :
    pairSum smallPrimes smallPrimes.reverse 179424672 5500 (13395 - 5500)
      (phi smallPrimes.reverse (13395 - 1)) 0 = 984819 := by decide!

theorem pairTotal_value : pairTotal 179424672 569 13395 = 5938220 := by
  have h1 := pairSum_total 569 569 2200 179424672 (by norm_num) (by norm_num) (by norm_num)
    (by norm_num) (by norm_num) (by norm_num)
  have h2 := pairSum_total 569 2200 5500 179424672 (by norm_num) (by norm_num) (by norm_num)
    (by norm_num) (by norm_num) (by norm_num)
  have h3 := pairSum_total 569 5500 13395 179424672 (by norm_num) (by norm_num) (by norm_num)
    (by norm_num) (by norm_num) (by norm_num)
  rw [primesBelow_569] at h1 h2 h3
  rw [pairSum_value_low] at h1
  rw [pairSum_value_mid] at h2
  rw [pairSum_value_high] at h3
  rw [← pairTotal_split 179424672 569 5500 13395 (by norm_num) (by norm_num),
    ← pairTotal_split 179424672 569 2200 5500 (by norm_num) (by norm_num), ← h1, ← h2, ← h3]

/-- Trial division of 179,424,673 and 179,424,691 by the primes below 13,396
    finds no factor. -/
theorem trial_division_value :
    isPrimeBy ((List.range 13396).filter (fun n => decide (2 ≤ n) && isPrimeBy smallPrimes n))
        179424673 = true ∧
      isPrimeBy ((List.range 13396).filter (fun n => decide (2 ≤ n) && isPrimeBy smallPrimes n))
        179424691 = true := by
  decide!

set_option maxRecDepth 512

/-- There are 9,999,999 primes below 179,424,673. -/
theorem count_below_179424673 : Nat.count Nat.Prime 179424673 = 9999999 := by
  have h := meissel 569 179424672 13395 (by norm_num) (by norm_num) (by norm_num) (by norm_num)
  rw [← phi_eq_roughCount 569 179424672 (by norm_num), primesBelow_569, phi_value, count_569,
    pairTotal_value] at h
  rw [show 179424672 + 1 = 179424673 from rfl] at h
  omega

theorem prime_179424673 : Nat.Prime 179424673 := by
  have h := trial_division_value.1
  rw [← primesBelow_569, ← primesBelow_eq_filter 569 13396 (by norm_num)] at h
  exact (isPrimeBy_spec 13396 179424673 (by norm_num) (by norm_num)).mp h

theorem prime_179424691 : Nat.Prime 179424691 := by
  have h := trial_division_value.2
  rw [← primesBelow_569, ← primesBelow_eq_filter 569 13396 (by norm_num)] at h
  exact (isPrimeBy_spec 13396 179424691 (by norm_num) (by norm_num)).mp h

theorem count_succ_of_prime (n c : Nat) (hc : Nat.count Nat.Prime n = c) (hn : Nat.Prime n) :
    Nat.count Nat.Prime (n + 1) = c + 1 := by
  rw [Nat.count_succ, if_pos hn, hc]

theorem count_succ_of_not_prime (n c : Nat) (hc : Nat.count Nat.Prime n = c)
    (hn : ¬ Nat.Prime n) : Nat.count Nat.Prime (n + 1) = c := by
  rw [Nat.count_succ, if_neg hn, hc, Nat.add_zero]

/-- There are 10,000,000 primes below 179,424,691: none lies strictly between
    179,424,673 and 179,424,691. -/
theorem count_below_179424691 : Nat.count Nat.Prime 179424691 = 10000000 := by
  have h74 : Nat.count Nat.Prime 179424674 = 10000000 :=
    count_succ_of_prime 179424673 9999999 count_below_179424673 prime_179424673
  have h75 : Nat.count Nat.Prime 179424675 = 10000000 :=
    count_succ_of_not_prime 179424674 10000000 h74 (by norm_num)
  have h76 : Nat.count Nat.Prime 179424676 = 10000000 :=
    count_succ_of_not_prime 179424675 10000000 h75 (by norm_num)
  have h77 : Nat.count Nat.Prime 179424677 = 10000000 :=
    count_succ_of_not_prime 179424676 10000000 h76 (by norm_num)
  have h78 : Nat.count Nat.Prime 179424678 = 10000000 :=
    count_succ_of_not_prime 179424677 10000000 h77 (by norm_num)
  have h79 : Nat.count Nat.Prime 179424679 = 10000000 :=
    count_succ_of_not_prime 179424678 10000000 h78 (by norm_num)
  have h80 : Nat.count Nat.Prime 179424680 = 10000000 :=
    count_succ_of_not_prime 179424679 10000000 h79 (by norm_num)
  have h81 : Nat.count Nat.Prime 179424681 = 10000000 :=
    count_succ_of_not_prime 179424680 10000000 h80 (by norm_num)
  have h82 : Nat.count Nat.Prime 179424682 = 10000000 :=
    count_succ_of_not_prime 179424681 10000000 h81 (by norm_num)
  have h83 : Nat.count Nat.Prime 179424683 = 10000000 :=
    count_succ_of_not_prime 179424682 10000000 h82 (by norm_num)
  have h84 : Nat.count Nat.Prime 179424684 = 10000000 :=
    count_succ_of_not_prime 179424683 10000000 h83 (by norm_num)
  have h85 : Nat.count Nat.Prime 179424685 = 10000000 :=
    count_succ_of_not_prime 179424684 10000000 h84 (by norm_num)
  have h86 : Nat.count Nat.Prime 179424686 = 10000000 :=
    count_succ_of_not_prime 179424685 10000000 h85 (by norm_num)
  have h87 : Nat.count Nat.Prime 179424687 = 10000000 :=
    count_succ_of_not_prime 179424686 10000000 h86 (by norm_num)
  have h88 : Nat.count Nat.Prime 179424688 = 10000000 :=
    count_succ_of_not_prime 179424687 10000000 h87 (by norm_num)
  have h89 : Nat.count Nat.Prime 179424689 = 10000000 :=
    count_succ_of_not_prime 179424688 10000000 h88 (by norm_num)
  have h90 : Nat.count Nat.Prime 179424690 = 10000000 :=
    count_succ_of_not_prime 179424689 10000000 h89 (by norm_num)
  have h91 : Nat.count Nat.Prime 179424691 = 10000000 :=
    count_succ_of_not_prime 179424690 10000000 h90 (by norm_num)
  exact h91

set_option maxRecDepth 1000000

set_option exponentiation.threshold 4096

/-- The prime `p` with `k` primes below it sits at index `k` of every list
    `primesBelow n` that reaches beyond `p`. -/
theorem primesBelow_getD_eq (n k p : Nat) (hp : Nat.Prime p)
    (hc : Nat.count Nat.Prime p = k) (hlt : p < n) :
    k < (primesBelow n).length ∧ (primesBelow n).getD k 0 = p := by
  have hk : k < (primesBelow n).length := by
    rw [primesBelow_length]
    have h1 : Nat.count Nat.Prime (p + 1) = k + 1 := by
      rw [Nat.count_succ, if_pos hp, hc]
    have h2 : Nat.count Nat.Prime (p + 1) ≤ Nat.count Nat.Prime n :=
      Nat.count_monotone _ hlt
    omega
  refine ⟨hk, ?_⟩
  obtain ⟨hq, hqc, -⟩ := primesBelow_getD n k hk
  rw [← Nat.nth_count hq, hqc, ← hc, Nat.nth_count hp]

/-- The sieve limit computed for the configured maximum rank. -/
theorem limitOf_maxPrimeIndex : limitOf maxPrimeIndex = 188980403 := by decide

set_option maxRecDepth 512

/-- The service built by `NewSieve` holds the primes up to 188,980,403. -/
theorem newSieve_eq : NewSieve = .done { primes := primesUpTo 188980403 } := by
  have h : findPrimes maxPrimeIndex = .done (primesUpTo 188980403) := by
    unfold findPrimes
    rw [limitOf_maxPrimeIndex, sieve_eq _ (by norm_num) (by norm_num),
      if_pos ⟨by norm_num, by unfold maxAlloc; norm_num⟩]
  unfold NewSieve
  rw [h]
  rfl

/-- On the list of primes up to a limit beyond the prime `p`, which has `k`
    primes below it, `NthPrime(k)` returns `p`. -/
theorem nthPrime_primesUpTo (L : Int) (k p : Nat) (ki pi : Int) (hki : ki = k) (hpi : pi = p)
    (hp : Nat.Prime p) (hc : Nat.count Nat.Prime p = k) (hlt : pi ≤ L) :
    k < (eratosthenesSieve.mk (primesUpTo L)).primes.length ∧
      (eratosthenesSieve.mk (primesUpTo L)).NthPrime ki = .ok pi := by
  subst hki hpi
  obtain ⟨h1, h2⟩ := primesBelow_getD_eq (L + 1).toNat k p hp hc (by omega)
  rw [← primesUpTo_length] at h1
  refine ⟨h1, ?_⟩
  unfold eratosthenesSieve.NthPrime
  rw [if_neg (by omega), if_pos (by exact_mod_cast h1), Int.toNat_ofNat, primesUpTo_getD, h2]

/-- C10 (counterexample): on the service built by `NewSieve`,
    `NthPrime(10,000,000)` returns 179,424,691, not 179,424,673. -/
theorem newSieve_rank_ten_million_not_179424673 :
    ∃ s : eratosthenesSieve, NewSieve = .done s ∧
      s.NthPrime 10000000 = .ok 179424691 ∧ s.NthPrime 10000000 ≠ .ok 179424673 := by
  have h := (nthPrime_primesUpTo 188980403 10000000 179424691 10000000 179424691 rfl rfl
    prime_179424691 count_below_179424691 (by norm_num)).2
  refine ⟨⟨primesUpTo 188980403⟩, newSieve_eq, h, ?_⟩
  intro hc
  have := hc.symm.trans h
  exact absurd (Except.ok.inj this) (by decide)

/-- C10 (amended): the service built by `NewSieve` for the configured maximum
    rank 10,000,000 holds a prime list of more than 10,000,000 elements;
    `NthPrime(10,000,000)` on it returns 179,424,691, the prime with exactly
    10,000,000 primes below it, and 179,424,673 is what it returns at rank
    9,999,999. -/
theorem newSieve_rank_ten_million :
    ∃ s : eratosthenesSieve, NewSieve = .done s ∧ 10000000 < s.primes.length ∧
      s.NthPrime 10000000 = .ok 179424691 ∧ s.NthPrime 9999999 = .ok 179424673 ∧
      Nat.Prime 179424691 ∧ Nat.count Nat.Prime 179424691 = 10000000 := by
  have h := nthPrime_primesUpTo 188980403 10000000 179424691 10000000 179424691 rfl rfl
    prime_179424691 count_below_179424691 (by norm_num)
  have h2 := nthPrime_primesUpTo 188980403 9999999 179424673 9999999 179424673 rfl rfl
    prime_179424673 count_below_179424673 (by norm_num)
  exact ⟨⟨primesUpTo 188980403⟩, newSieve_eq, h.1, h.2, h2.2, prime_179424691,
    count_below_179424691⟩

/-! ### The query leaves the service alone -/

theorem callNthPrime_fst (s : eratosthenesSieve) (n : Int) :
    (s.callNthPrime n).1 = s.NthPrime n := by
  unfold eratosthenesSieve.callNthPrime eratosthenesSieve.NthPrime
  split_ifs <;> rfl

theorem callNthPrime_snd (s : eratosthenesSieve) (n : Int) : (s.callNthPrime n).2 = s := by
  unfold eratosthenesSieve.callNthPrime
  split_ifs <;> rfl

theorem callsNthPrime_eq (s : eratosthenesSieve) :
    ∀ ns : List Int, s.callsNthPrime ns = (ns.map (fun n => s.NthPrime n), s) := by
  intro ns
  induction ns with
  | nil => rfl
  | cons n rest ih =>
    unfold eratosthenesSieve.callsNthPrime
    simp only [callNthPrime_snd, callNthPrime_fst, ih, List.map_cons]

/-- C11: a call `NthPrime(k)` hands back the service with its prime list
    unchanged, whatever the service and the rank and whether the call returns
    or panics; a second call with the same `k`, also after any number of
    calls with other ranks in between, has the outcome of the first. -/
theorem nthPrime_leaves_service_unchanged (s : eratosthenesSieve) (k : Int) :
    (s.callNthPrime k).2.primes = s.primes ∧
    ((s.callNthPrime k).2.callNthPrime k).1 = (s.callNthPrime k).1 ∧
    (∀ between : List Int,
      ((s.callNthPrime k).2.callsNthPrime between).2.primes = s.primes ∧
      ((((s.callNthPrime k).2.callsNthPrime between).2).callNthPrime k).1 =
        (s.callNthPrime k).1) ∧
    (s.callNthPrime k).1 = s.NthPrime k := by
  refine ⟨by rw [callNthPrime_snd], by rw [callNthPrime_snd], fun between => ?_,
    callNthPrime_fst s k⟩
  rw [callNthPrime_snd, callsNthPrime_eq]
  exact ⟨rfl, rfl⟩

/-! ### Lists for two limits -/

theorem primesBelow_initial (a b : Nat) (h : a ≤ b) : primesBelow a <+: primesBelow b := by
  obtain ⟨c, rfl⟩ := Nat.exists_eq_add_of_le h
  unfold primesBelow
  rw [List.range_add, List.filter_append]
  exact ⟨_, rfl⟩

theorem primesUpTo_initial (L1 L2 : Int) (h : L1 ≤ L2) : primesUpTo L1 <+: primesUpTo L2 := by
  unfold primesUpTo
  exact List.IsPrefix.map _ (primesBelow_initial _ _ (Int.toNat_le_toNat (by omega)))

theorem nthPrime_of_initial (ps1 ps2 : List Int) (h : ps1 <+: ps2) (n : Int)
    (hn : n < ps1.length) :
    (eratosthenesSieve.mk ps2).NthPrime n = (eratosthenesSieve.mk ps1).NthPrime n := by
  obtain ⟨t, rfl⟩ := h
  unfold eratosthenesSieve.NthPrime
  by_cases h0 : n < 0
  · rw [if_pos h0, if_pos h0]
  · rw [if_neg h0, if_neg h0, if_pos hn,
      if_pos (by simp only [List.length_append]; push_cast; omega)]
    have hlt : n.toNat < ps1.length := by omega
    show Except.ok ((ps1 ++ t).getD n.toNat 0) = Except.ok (ps1.getD n.toNat 0)
    rw [List.getD_append _ _ _ _ hlt]

/-- C13: for 64-bit limits `L1 ≤ L2` whose builds return, the prime list for
    `L1` is a prefix of the prime list for `L2`, and for every rank below the
    length of the shorter list `NthPrime` has the same outcome on both
    services. -/
theorem prime_list_initial_segment_of_larger_limit (L1 L2 : Int) (ps1 ps2 : List Int)
    (h1 : -(2 ^ 63) ≤ L1) (h12 : L1 ≤ L2) (h2 : L2 < 2 ^ 63)
    (hb1 : sieve L1 = .done ps1) (hb2 : sieve L2 = .done ps2) :
    ps1 <+: ps2 ∧
    ∀ n : Int, n < ps1.length →
      (eratosthenesSieve.mk ps2).NthPrime n = (eratosthenesSieve.mk ps1).NthPrime n := by
  have hp : ps1 <+: ps2 := by
    rw [sieve_eq L1 h1 (by omega)] at hb1
    rw [sieve_eq L2 (by omega) h2] at hb2
    split_ifs at hb1 hb2
    cases hb1
    cases hb2
    exact primesUpTo_initial L1 L2 h12
  exact ⟨hp, fun n hn => nthPrime_of_initial ps1 ps2 hp n hn⟩

/-- Witness of C13: the builds for the configured bounds 3 and 4, whose
    limits are 7 and 11. -/
theorem prime_list_initial_segment_of_larger_limit_witness :
    [(2 : Int), 3, 5, 7] <+: [2, 3, 5, 7, 11] ∧
    ∀ n : Int, n < ([(2 : Int), 3, 5, 7] : List Int).length →
      (eratosthenesSieve.mk [2, 3, 5, 7, 11]).NthPrime n =
        (eratosthenesSieve.mk [2, 3, 5, 7]).NthPrime n :=
  prime_list_initial_segment_of_larger_limit 7 11 [2, 3, 5, 7] [2, 3, 5, 7, 11]
    (by decide) (by decide) (by decide) (by decide) (by decide)

/-! ### More fuel changes no outcome -/

theorem initLoop_mono (w : Int → Int) :
    ∀ (f f2 : Nat) (i : Int) (m : List Bool) (r : Run (List Bool)), f ≤ f2 →
      initLoop w f i m = r → r ≠ .outOfFuel → initLoop w f2 i m = r := by
  intro f
  induction f with
  | zero => intro f2 i m r _ h hr; exact absurd h.symm hr
  | succ f ih =>
    intro f2 i m r hle h hr
    obtain ⟨g, rfl⟩ : ∃ g, f2 = g + 1 := ⟨f2 - 1, by omega⟩
    unfold initLoop at h ⊢
    by_cases hc : i < m.length
    · rw [if_pos hc] at h ⊢
      cases hwr : writeAt m i true with
      | error p => rw [hwr] at h; exact h
      | ok m2 =>
        rw [hwr] at h
        exact ih g _ m2 r (by omega) h hr
    · rw [if_neg hc] at h ⊢
      exact h

theorem strikeLoop_mono (w : Int → Int) (p : Int) :
    ∀ (f f2 : Nat) (j : Int) (m : List Bool) (r : Run (List Bool)), f ≤ f2 →
      strikeLoop w f p j m = r → r ≠ .outOfFuel → strikeLoop w f2 p j m = r := by
  intro f
  induction f with
  | zero => intro f2 j m r _ h hr; exact absurd h.symm hr
  | succ f ih =>
    intro f2 j m r hle h hr
    obtain ⟨g, rfl⟩ : ∃ g, f2 = g + 1 := ⟨f2 - 1, by omega⟩
    unfold strikeLoop at h ⊢
    by_cases hc : j < m.length
    · rw [if_pos hc] at h ⊢
      cases hwr : writeAt m j false with
      | error p => rw [hwr] at h; exact h
      | ok m2 =>
        rw [hwr] at h
        exact ih g _ m2 r (by omega) h hr
    · rw [if_neg hc] at h ⊢
      exact h

theorem markLoop_mono (w : Int → Int) (inner inner2 : Nat) (hin : inner ≤ inner2) :
    ∀ (f f2 : Nat) (i : Int) (m : List Bool) (r : Run (List Bool)), f ≤ f2 →
      markLoop w inner f i m = r → r ≠ .outOfFuel → markLoop w inner2 f2 i m = r := by
  intro f
  induction f with
  | zero => intro f2 i m r _ h hr; exact absurd h.symm hr
  | succ f ih =>
    intro f2 i m r hle h hr
    obtain ⟨g, rfl⟩ : ∃ g, f2 = g + 1 := ⟨f2 - 1, by omega⟩
    unfold markLoop at h ⊢
    by_cases hc : w (i * i) < m.length
    · rw [if_pos hc] at h ⊢
      cases hrd : readAt m i with
      | error p => rw [hrd] at h; exact h
      | ok b =>
        rw [hrd] at h
        cases b with
        | false => exact ih g _ m r (by omega) h hr
        | true =>
          simp only [] at h ⊢
          cases hs : strikeLoop w inner i (w (i * i)) m with
          | outOfFuel => rw [hs] at h; exact absurd h.symm hr
          | panic p =>
            rw [hs] at h
            rw [strikeLoop_mono w i inner inner2 _ m _ hin hs (by simp)]
            exact h
          | done m2 =>
            rw [hs] at h
            rw [strikeLoop_mono w i inner inner2 _ m _ hin hs (by simp)]
            exact ih g _ m2 r (by omega) h hr
    · rw [if_neg hc] at h ⊢
      exact h

theorem sieveWith_mono (w : Int → Int) (f f2 : Nat) (hle : f ≤ f2) (L : Int)
    (r : Run (List Int)) (h : sieveWith w f L = r) (hr : r ≠ .outOfFuel) :
    sieveWith w f2 L = r := by
  unfold sieveWith at h ⊢
  cases hmk : makeBools (w (L + 1)) with
  | error p => rw [hmk] at h; exact h
  | ok marked =>
    rw [hmk] at h
    simp only [] at h ⊢
    cases hi : initLoop w f 2 marked with
    | outOfFuel => rw [hi] at h; exact absurd h.symm hr
    | panic p =>
      rw [hi] at h
      rw [initLoop_mono w f f2 2 marked _ hle hi (by simp)]
      exact h
    | done m1 =>
      rw [hi] at h
      rw [initLoop_mono w f f2 2 marked _ hle hi (by simp)]
      simp only [] at h ⊢
      cases hm : markLoop w f f 2 m1 with
      | outOfFuel => rw [hm] at h; exact absurd h.symm hr
      | panic p =>
        rw [hm] at h
        rw [markLoop_mono w f f2 hle f f2 2 m1 _ hle hm (by simp)]
        exact h
      | done m2 =>
        rw [hm] at h
        rw [markLoop_mono w f f2 hle f f2 2 m1 _ hle hm (by simp)]
        exact h

/-- With the fuel `sieveFuel L` or more, the run of the sieve is the run
    `sieve L`. -/
theorem sieveWith_enough (L : Int) (hL : -(2 ^ 63) ≤ L) (hL2 : L < 2 ^ 63) (fuel : Nat)
    (hf : sieveFuel L ≤ fuel) :
    sieveWith wrap64 fuel L = sieve L ∧ sieve L ≠ .outOfFuel := by
  have hne : sieve L ≠ .outOfFuel := by
    rw [sieve_eq L hL hL2]
    split_ifs <;> simp
  exact ⟨sieveWith_mono wrap64 (sieveFuel L) fuel hf L (sieve L) rfl hne, hne⟩

/-- Whatever the fuel, the run of the sieve either runs out of fuel or is the
    run `sieve L`. -/
theorem sieveWith_any_fuel (L : Int) (hL : -(2 ^ 63) ≤ L) (hL2 : L < 2 ^ 63) (fuel : Nat) :
    sieveWith wrap64 fuel L = .outOfFuel ∨ sieveWith wrap64 fuel L = sieve L := by
  by_cases h : sieveWith wrap64 fuel L = .outOfFuel
  · exact Or.inl h
  · right
    have h1 := sieveWith_mono wrap64 fuel (max fuel (sieveFuel L)) (le_max_left _ _) L _ rfl h
    rw [← h1]
    exact (sieveWith_enough L hL hL2 _ (le_max_right _ _)).1

theorem readAt_in_bounds (marked : List Bool) (i : Int) :
    readAt marked i ≠ .error .indexOutOfRange ↔ 0 ≤ i ∧ i < marked.length := by
  unfold readAt
  split_ifs with h
  · simp [h]
  · simp [h]

theorem writeAt_in_bounds (marked : List Bool) (i : Int) (b : Bool) :
    writeAt marked i b ≠ .error .indexOutOfRange ↔ 0 ≤ i ∧ i < marked.length := by
  unfold writeAt
  split_ifs with h
  · simp [h]
  · simp [h]

/-! ### The states of the marking loop -/

theorem exact_sq (w : Int → Int) (hw : Exact64 w) (n : Nat) (hn : n ≤ 2 ^ 31) :
    w ((n : Int) * (n : Int)) = ((n * n : Nat) : Int) := by
  have hsq : n * n ≤ 2 ^ 62 := by
    have := Nat.mul_le_mul hn hn
    norm_num at this ⊢
    exact this
  have := hw ((n : Int) * n)
    (le_trans (by norm_num) (mul_nonneg (Int.ofNat_nonneg n) (Int.ofNat_nonneg n))) (by
    have : ((n * n : Nat) : Int) ≤ 2 ^ 62 := by exact_mod_cast hsq
    push_cast at this
    norm_num at this ⊢
    omega)
  simpa using this

theorem exact_succ (w : Int → Int) (hw : Exact64 w) (n : Nat) (hn : n ≤ 2 ^ 62) :
    w ((n : Int) + 1) = ((n + 1 : Nat) : Int) := by
  have := hw ((n : Int) + 1) (by omega) (by norm_num at hn ⊢; omega)
  simpa using this

/-- Every state in which the marking loop evaluates its condition has
    `2 ≤ i ≤ 2^31` and an array sifted by the numbers below `i`. -/
theorem markStates_sifted (w : Int → Int) (hw : Exact64 w) (len inner : Nat)
    (hlen : len ≤ 2 ^ 62) (hinner : len + 1 ≤ inner) :
    ∀ (fuel n : Nat) (marked : List Bool),
      Sifted len n marked → 2 ≤ n → n ≤ 2 ^ 31 →
      ∀ s ∈ markStates w inner fuel (n : Int) marked,
        ∃ k : Nat, s.1 = (k : Int) ∧ 2 ≤ k ∧ k ≤ 2 ^ 31 ∧ Sifted len k s.2 := by
  intro fuel
  induction fuel with
  | zero => intro n marked _ _ _ s hs; simp [markStates] at hs
  | succ fuel ih =>
    intro n marked hsift hn2 hn31 s hs
    have hml : marked.length = len := hsift.1
    unfold markStates at hs
    rw [List.mem_cons] at hs
    rcases hs with rfl | hs
    · exact ⟨n, rfl, hn2, hn31, hsift⟩
    rw [exact_sq w hw n hn31] at hs
    by_cases hc : n * n < len
    · have hc2 : ((n * n : Nat) : Int) < (marked.length : Int) := by
        rw [hml]; exact_mod_cast hc
      have hil : n < len := lt_of_le_of_lt (Nat.le_mul_self n) hc
      have hn31b : n < 2 ^ 31 := sq_bound hc hlen
      rw [if_pos hc2, readAt_nat marked n (by omega),
        exact_succ w hw n (by norm_num at hn31 ⊢; omega)] at hs
      cases hb : marked.getD n false with
      | true =>
        rw [hb] at hs
        simp only [] at hs
        obtain ⟨m, hm, hmlen, hmk⟩ := strikeLoop_spec w hw n (by omega)
          (by norm_num at hn31 ⊢; omega) inner (n * n) marked (by omega)
          (Dvd.intro n rfl) (by omega) (by omega)
        rw [hm] at hs
        exact ih (n + 1) m (sifted_strike len n marked m hsift hn2 hmlen hmk) (by omega)
          (by omega) s hs
      | false =>
        rw [hb] at hs
        exact ih (n + 1) marked (sifted_skip len n marked hsift hn2 hil hb) (by omega)
          (by omega) s hs
    · have hc2 : ¬ ((n * n : Nat) : Int) < (marked.length : Int) := by
        rw [hml]; intro h; exact hc (by exact_mod_cast h)
      rw [if_neg hc2] at hs
      simp at hs

/-- The array that the marking loop returns is the array of the last state
    in which it evaluates its condition, and the condition fails there. -/
theorem markStates_last (w : Int → Int) (inner : Nat) :
    ∀ (fuel : Nat) (i : Int) (marked r : List Bool),
      markLoop w inner fuel i marked = .done r →
      ∃ i2 : Int, (i2, r) ∈ markStates w inner fuel i marked ∧ ¬ w (i2 * i2) < r.length := by
  intro fuel
  induction fuel with
  | zero => intro i marked r h; simp [markLoop] at h
  | succ fuel ih =>
    intro i marked r h
    unfold markLoop at h
    unfold markStates
    by_cases hc : w (i * i) < marked.length
    · rw [if_pos hc] at h ⊢
      cases hrd : readAt marked i with
      | error p => rw [hrd] at h; simp at h
      | ok b =>
        rw [hrd] at h
        cases b with
        | false =>
          obtain ⟨i2, h1, h2⟩ := ih _ _ _ h
          exact ⟨i2, List.mem_cons_of_mem _ h1, h2⟩
        | true =>
          simp only [] at h ⊢
          cases hs : strikeLoop w inner i (w (i * i)) marked with
          | outOfFuel => rw [hs] at h; simp at h
          | panic p => rw [hs] at h; simp at h
          | done m2 =>
            rw [hs] at h
            obtain ⟨i2, h1, h2⟩ := ih _ _ _ h
            exact ⟨i2, List.mem_cons_of_mem _ h1, h2⟩
    · rw [if_neg hc] at h ⊢
      cases h
      exact ⟨i, List.mem_cons_self _ _, hc⟩

/-- Every value of `j` with which the striking loop evaluates its condition
    is a natural number between the first one and `len(marked) + smallPrime`
    (or the first one, where that is larger). -/
theorem strikeStates_bound (w : Int → Int) (hw : Exact64 w) (p len : Nat)
    (hp : p ≤ 2 ^ 31) (hlen : len ≤ 2 ^ 62) :
    ∀ (fuel j : Nat) (marked : List Bool), marked.length = len →
      ∀ x ∈ strikeStates w fuel (p : Int) (j : Int) marked,
        ∃ k : Nat, x = (k : Int) ∧ j ≤ k ∧ k ≤ max j (len + p) := by
  intro fuel
  induction fuel with
  | zero => intro j marked _ x hx; simp [strikeStates] at hx
  | succ fuel ih =>
    intro j marked hml x hx
    unfold strikeStates at hx
    rw [List.mem_cons] at hx
    rcases hx with rfl | hx
    · exact ⟨j, rfl, le_refl _, le_max_left _ _⟩
    by_cases hc : j < marked.length
    · have hc2 : (j : Int) < (marked.length : Int) := by omega
      have hw1 : w ((j : Int) + (p : Int)) = ((j + p : Nat) : Int) := by
        have := hw ((j : Int) + p) (by omega) (by norm_num at hlen hp ⊢; omega)
        simpa using this
      rw [if_pos hc2, writeAt_nat marked j false hc, hw1] at hx
      obtain ⟨k, hk, hjk, hkl⟩ := ih (j + p) (marked.set j false) (by simpa using hml) x hx
      refine ⟨k, hk, by omega, ?_⟩
      have h1 : max (j + p) (len + p) = len + p := max_eq_right (by omega)
      rw [h1] at hkl
      exact le_trans hkl (le_max_right _ _)
    · have hc2 : ¬ (j : Int) < (marked.length : Int) := by omega
      rw [if_neg hc2] at hx
      simp at hx

/-- The striking loop, when it returns, has evaluated its condition with a
    `j` that is not below the length of the array. -/
theorem strikeStates_last (w : Int → Int) (p : Int) :
    ∀ (fuel : Nat) (j : Int) (marked r : List Bool),
      strikeLoop w fuel p j marked = .done r →
      ∃ j2 ∈ strikeStates w fuel p j marked, ¬ j2 < (marked.length : Int) := by
  intro fuel
  induction fuel with
  | zero => intro j marked r h; simp [strikeLoop] at h
  | succ fuel ih =>
    intro j marked r h
    unfold strikeLoop at h
    unfold strikeStates
    by_cases hc : j < marked.length
    · rw [if_pos hc] at h ⊢
      cases hwr : writeAt marked j false with
      | error e => rw [hwr] at h; simp at h
      | ok m2 =>
        rw [hwr] at h
        simp only [] at h ⊢
        obtain ⟨j2, h1, h2⟩ := ih _ _ _ h
        have hlen : m2.length = marked.length := by
          unfold writeAt at hwr
          split_ifs at hwr
          cases hwr
          simp
        rw [hlen] at h2
        exact ⟨j2, List.mem_cons_of_mem _ h1, h2⟩
    · rw [if_neg hc] at h ⊢
      exact ⟨j, List.mem_cons_self _ _, hc⟩

/-! ### Striking from `i * i` or from `2 * i` -/

/-- The array after the initialisation loop: cells 0 and 1 unmarked, all
    others marked. -/
theorem initLoop_sifted (w : Int → Int) (hw : Exact64 w) (len fuel : Nat)
    (hlen : len ≤ 2 ^ 62) (hfuel : len + 1 ≤ fuel) :
    ∃ m1, initLoop w fuel 2 (List.replicate len false) = .done m1 ∧ Sifted len 2 m1 := by
  obtain ⟨m1, hm1, hm1l, hm1k⟩ := initLoop_spec w hw fuel 2 (List.replicate len false)
    (by simpa using hlen) (by simp; omega) (by omega)
  simp only [Nat.cast_ofNat] at hm1
  refine ⟨m1, hm1, by simpa using hm1l, fun k hk => ?_⟩
  rw [hm1k k]
  simp only [List.length_replicate]
  constructor
  · intro h
    by_cases h2k : 2 ≤ k
    · exact ⟨h2k, fun d hd2 hd => by omega⟩
    · have : ¬ (2 ≤ k ∧ k < len) := fun hh => h2k hh.1
      simp [this] at h
  · rintro ⟨h2k, -⟩
    simp [h2k, hk]

theorem siftedAll_two (len : Nat) (m : List Bool) (h : Sifted len 2 m) : SiftedAll len 2 m := by
  refine ⟨h.1, fun k hk => ?_⟩
  rw [h.2 k hk]
  constructor
  · rintro ⟨h2, -⟩
    exact ⟨h2, fun d hd2 hd => by omega⟩
  · rintro ⟨h2, -⟩
    exact ⟨h2, fun d hd2 hd => by omega⟩

theorem siftedAll_skip (len i : Nat) (marked : List Bool) (h : SiftedAll len i marked)
    (hil : i < len) (hmi : marked.getD i false = false) :
    SiftedAll len (i + 1) marked := by
  refine ⟨h.1, fun k hk => ?_⟩
  rw [h.2 k hk]
  constructor
  · rintro ⟨h2, hall⟩
    refine ⟨h2, fun d hd2 hdi hdk hdvd => ?_⟩
    rcases Nat.lt_succ_iff_lt_or_eq.mp hdi with hlt | heq
    · exact hall d hd2 hlt hdk hdvd
    · subst heq
      have hnot : ¬ (2 ≤ d ∧ ∀ c, 2 ≤ c → c < d → c < d → ¬ c ∣ d) := by
        intro hc
        have := (h.2 d hil).mpr hc
        rw [hmi] at this
        exact Bool.false_ne_true this
      push_neg at hnot
      obtain ⟨c, hc2, hcd, -, hcdvd⟩ := hnot hd2
      exact hall c hc2 hcd (by omega) (dvd_trans hcdvd hdvd)
  · rintro ⟨h2, hall⟩
    exact ⟨h2, fun d hd2 hdi hdk => hall d hd2 (by omega) hdk⟩

theorem siftedAll_strike (len i : Nat) (marked m : List Bool) (h : SiftedAll len i marked)
    (hi2 : 2 ≤ i) (hml : m.length = marked.length)
    (hmk : ∀ k, m.getD k false = if 2 * i ≤ k ∧ i ∣ k then false else marked.getD k false) :
    SiftedAll len (i + 1) m := by
  refine ⟨by rw [hml]; exact h.1, fun k hk => ?_⟩
  rw [hmk k]
  by_cases hc : 2 * i ≤ k ∧ i ∣ k
  · simp only [hc, and_self, if_true, Bool.false_eq_true, false_iff]
    rintro ⟨h2, hall⟩
    exact hall i hi2 (by omega) (by omega) hc.2
  · simp only [hc, if_false]
    rw [h.2 k hk]
    constructor
    · rintro ⟨h2, hall⟩
      refine ⟨h2, fun d hd2 hdi hdk hdvd => ?_⟩
      rcases Nat.lt_succ_iff_lt_or_eq.mp hdi with hlt | heq
      · exact hall d hd2 hlt hdk hdvd
      · subst heq
        apply hc
        refine ⟨?_, hdvd⟩
        obtain ⟨c, rfl⟩ := hdvd
        have hc1 : 2 ≤ c := by
          by_contra hcon
          have hc01 : c = 0 ∨ c = 1 := by omega
          rcases hc01 with h0 | h1
          · subst h0; omega
          · subst h1; omega
        calc 2 * d = d * 2 := Nat.mul_comm 2 d
          _ ≤ d * c := Nat.mul_le_mul_left d hc1
    · rintro ⟨h2, hall⟩
      exact ⟨h2, fun d hd2 hdi hdk => hall d hd2 (by omega) hdk⟩

theorem siftedAll_prime (len i : Nat) (m : List Bool) (h : SiftedAll len i m)
    (hi : len ≤ i * i) (k : Nat) (hk : k < len) :
    m.getD k false = decide (Nat.Prime k) := by
  have := h.2 k hk
  by_cases hp : Nat.Prime k
  · simp only [hp, decide_True]
    rw [this]
    refine ⟨hp.two_le, fun d hd2 _ hdk hdvd => ?_⟩
    rcases (Nat.dvd_prime hp).mp hdvd with h1 | h1
    · omega
    · omega
  · simp only [hp, decide_False]
    cases hb : m.getD k false with
    | false => rfl
    | true =>
      exfalso
      apply hp
      rw [Nat.prime_def_le_sqrt]
      obtain ⟨h2, hall⟩ := this.mp hb
      refine ⟨h2, fun d hd2 hdk => ?_⟩
      have hdd : d * d ≤ k := Nat.le_sqrt.mp hdk
      have hdlt : d < k := by
        have : d * 2 ≤ d * d := Nat.mul_le_mul_left d hd2
        omega
      refine hall d hd2 ?_ hdlt
      by_contra hc
      have h1 : i ≤ d := not_lt.mp hc
      have h3 : i * i ≤ d * d := Nat.mul_le_mul h1 h1
      omega

theorem markLoopFromDouble_spec (w : Int → Int) (hw : Exact64 w) (len inner : Nat)
    (hlen : len ≤ 2 ^ 62) (hinner : len + 1 ≤ inner) :
    ∀ (fuel i : Nat) (marked : List Bool),
      SiftedAll len i marked → 2 ≤ i → i ≤ 2 ^ 31 → len + 1 ≤ i + fuel → 1 ≤ fuel →
      ∃ m i2, markLoopFromDouble w inner fuel (i : Int) marked = .done m ∧
        SiftedAll len i2 m ∧ len ≤ i2 * i2 := by
  intro fuel
  induction fuel with
  | zero => intro i marked _ _ _ _ h; omega
  | succ fuel ih =>
    intro i marked hs hi2 hi31 hfuel _
    have hml : marked.length = len := hs.1
    unfold markLoopFromDouble
    rw [exact_sq w hw i hi31]
    by_cases hc : i * i < len
    · have hc2 : ((i * i : Nat) : Int) < (marked.length : Int) := by
        rw [hml]; exact_mod_cast hc
      have hil : i < len := lt_of_le_of_lt (Nat.le_mul_self i) hc
      have hi31b : i < 2 ^ 31 := sq_bound hc hlen
      have hw2 : w (2 * (i : Int)) = ((2 * i : Nat) : Int) := by
        have := hw (2 * (i : Int)) (by omega) (by norm_num at hi31b ⊢; omega)
        simpa using this
      simp only [hc2, if_true, readAt_nat marked i (by omega),
        exact_succ w hw i (by norm_num at hi31 ⊢; omega), hw2]
      cases hb : marked.getD i false with
      | true =>
        simp only []
        obtain ⟨m, hm, hmlen, hmk⟩ := strikeLoop_spec w hw i (by omega)
          (by norm_num at hi31 ⊢; omega) inner (2 * i) marked (by omega)
          (Dvd.intro_left 2 rfl) (by omega) (by omega)
        rw [hm]
        simp only []
        exact ih (i + 1) m (siftedAll_strike len i marked m hs hi2 hmlen hmk) (by omega)
          (by omega) (by omega) (by omega)
      | false =>
        simp only []
        exact ih (i + 1) marked (siftedAll_skip len i marked hs hil hb) (by omega)
          (by omega) (by omega) (by omega)
    · have hc2 : ¬ ((i * i : Nat) : Int) < (marked.length : Int) := by
        rw [hml]; intro h; exact hc (by exact_mod_cast h)
      simp only [hc2, if_false]
      exact ⟨marked, i, rfl, hs, not_lt.mp hc⟩

theorem bools_ext (a b : List Bool) (hl : a.length = b.length)
    (h : ∀ k, k < a.length → a.getD k false = b.getD k false) : a = b := by
  apply List.ext_getElem hl
  intro k h1 h2
  have := h k h1
  rw [List.getD_eq_getElem _ _ h1, List.getD_eq_getElem _ _ h2] at this
  exact this

/-- On the array left by the initialisation loop, the marking loop and the
    loop that strikes from `2 * i` return the same array: a cell is marked
    exactly when its index is prime. -/
theorem markLoop_eq_fromDouble (w : Int → Int) (hw : Exact64 w) (len fuel : Nat)
    (hlen : len ≤ 2 ^ 62) (hfuel : len + 1 ≤ fuel) (m1 : List Bool) (hs : Sifted len 2 m1) :
    ∃ m, markLoop w fuel fuel 2 m1 = .done m ∧ markLoopFromDouble w fuel fuel 2 m1 = .done m ∧
      m.length = len ∧ ∀ k, k < len → m.getD k false = decide (Nat.Prime k) := by
  obtain ⟨m, i2, hm, hsm, hi2⟩ := markLoop_spec w hw len fuel hlen hfuel fuel 2 m1 hs
    (by omega) (by norm_num) (by omega) (by omega)
  obtain ⟨m', i3, hm', hsm', hi3⟩ := markLoopFromDouble_spec w hw len fuel hlen hfuel fuel 2 m1
    (siftedAll_two len m1 hs) (by omega) (by norm_num) (by omega) (by omega)
  simp only [Nat.cast_ofNat] at hm hm'
  have heq : m' = m := by
    apply bools_ext m' m (by rw [hsm'.1, hsm.1])
    intro k hk
    rw [hsm'.1] at hk
    rw [siftedAll_prime len i3 m' hsm' hi3 k hk, sifted_prime len i2 m hsm hi2 k hk]
  rw [heq] at hm'
  exact ⟨m, hm, hm', hsm.1, fun k hk => sifted_prime len i2 m hsm hi2 k hk⟩

theorem sieveWith_eq_collectRun (w : Int → Int) (fuel : Nat) (L : Int) :
    sieveWith w fuel L = collectRun (markedArray w fuel L) := by
  unfold sieveWith markedArray initArray
  cases makeBools (w (L + 1)) with
  | error p => rfl
  | ok marked =>
    simp only []
    cases initLoop w fuel 2 marked with
    | outOfFuel => rfl
    | panic p => rfl
    | done m1 =>
      simp only []
      cases markLoop w fuel fuel 2 m1 with
      | outOfFuel => rfl
      | panic p => rfl
      | done m2 => rfl

theorem initArray_ok (w : Int → Int) (L v : Int) (hv : w (L + 1) = v) (h1 : 0 ≤ v)
    (h2 : v ≤ maxAlloc) (fuel : Nat) :
    initArray w fuel L = initLoop w fuel 2 (List.replicate v.toNat false) := by
  have hmk : makeBools v = .ok (List.replicate v.toNat false) := by
    unfold makeBools
    have : ¬ (v < 0 ∨ maxAlloc < v) := by omega
    simp [this]
  unfold initArray
  rw [hv, hmk]

theorem initArray_panic (w : Int → Int) (L : Int) (h : ¬ (0 ≤ w (L + 1) ∧ w (L + 1) ≤ maxAlloc))
    (fuel : Nat) : initArray w fuel L = .panic .makesliceLen := by
  have hmk : makeBools (w (L + 1)) = .error .makesliceLen := by
    unfold makeBools
    have : w (L + 1) < 0 ∨ maxAlloc < w (L + 1) := by omega
    rw [if_pos this]
  unfold initArray
  rw [hmk]

/-- The length of the array that the build allocates, when it allocates one. -/
theorem wrap64_succ_of_alloc (L : Int) (hL : -(2 ^ 63) ≤ L) (hL2 : L < 2 ^ 63)
    (h : 0 ≤ wrap64 (L + 1) ∧ wrap64 (L + 1) ≤ maxAlloc) :
    wrap64 (L + 1) = L + 1 ∧ (wrap64 (L + 1)).toNat + 1 = sieveFuel L ∧
      (wrap64 (L + 1)).toNat ≤ 2 ^ 62 := by
  have hA : maxAlloc = 2 ^ 48 := rfl
  have hw : wrap64 (L + 1) = L + 1 := by
    by_cases hmax : L + 1 < 2 ^ 63
    · exact wrap64_exact (L + 1) (by omega) hmax
    · exfalso
      have hLe : L = 2 ^ 63 - 1 := by omega
      have hneg : wrap64 (L + 1) < 0 := by
        rw [hLe]
        decide
      omega
  rw [hw] at h ⊢
  rw [hA] at h
  refine ⟨rfl, ?_, ?_⟩
  · unfold sieveFuel
    omega
  · have := h.2
    norm_num at this ⊢
    omega

/-- C12: when the marking loop of the build for a 64-bit limit `L` reaches
    `i` (any state in which it evaluates its condition, whether or not `i` is
    still marked), every multiple `k * i` with `2 ≤ k < i` and `k * i ≤ L` is
    unmarked; and the loop that strikes from `2 * i` leaves the same marked
    array as the program's loop, which strikes from `i * i`, so that the
    collection loop returns the same prime list from both. -/
theorem striking_from_square_same_as_from_double (L : Int) (hL : -(2 ^ 63) ≤ L)
    (hL2 : L < 2 ^ 63) (fuel : Nat) (hf : sieveFuel L ≤ fuel) :
    (∀ m1, initArray wrap64 fuel L = .done m1 →
      ∀ s ∈ markStates wrap64 fuel fuel 2 m1,
        ∀ k : Int, 2 ≤ k → k < s.1 → k * s.1 ≤ L → readAt s.2 (k * s.1) = .ok false) ∧
    markedArrayFromDouble wrap64 fuel L = markedArray wrap64 fuel L ∧
    markedArray wrap64 fuel L ≠ .outOfFuel ∧
    collectRun (markedArrayFromDouble wrap64 fuel L) = sieve L := by
  have hmain : (∀ m1, initArray wrap64 fuel L = .done m1 →
      ∀ s ∈ markStates wrap64 fuel fuel 2 m1,
        ∀ k : Int, 2 ≤ k → k < s.1 → k * s.1 ≤ L → readAt s.2 (k * s.1) = .ok false) ∧
      markedArrayFromDouble wrap64 fuel L = markedArray wrap64 fuel L ∧
      markedArray wrap64 fuel L ≠ .outOfFuel := by
    by_cases hv : 0 ≤ wrap64 (L + 1) ∧ wrap64 (L + 1) ≤ maxAlloc
    · obtain ⟨hw, hfuel, hlen⟩ := wrap64_succ_of_alloc L hL hL2 hv
      obtain ⟨len, hlendef⟩ : ∃ len : Nat, len = (wrap64 (L + 1)).toNat := ⟨_, rfl⟩
      rw [← hlendef] at hfuel hlen
      have hinit := initArray_ok wrap64 L _ rfl hv.1 hv.2 fuel
      rw [← hlendef] at hinit
      obtain ⟨m1, hm1, hs1⟩ := initLoop_sifted wrap64 wrap64_exact len fuel hlen (by omega)
      rw [hm1] at hinit
      obtain ⟨m, hm, hm', -, -⟩ := markLoop_eq_fromDouble wrap64 wrap64_exact len fuel hlen
        (by omega) m1 hs1
      refine ⟨?_, ?_, ?_⟩
      · intro m0 hm0 s hs k hk2 hki hkL
        rw [hinit] at hm0
        cases hm0
        obtain ⟨n, hn, hn2, -, hsift⟩ := markStates_sifted wrap64 wrap64_exact len fuel hlen
          (by omega) fuel 2 m1 hs1 (by omega) (by norm_num) s (by simpa using hs)
        obtain ⟨c, rfl⟩ : ∃ c : Nat, k = (c : Int) := ⟨k.toNat, by omega⟩
        rw [hn] at hki hkL ⊢
        have hc2 : 2 ≤ c := by omega
        have hcn : c < n := by omega
        have hlt : c * n < len := by
          have h1 : ((c * n : Nat) : Int) ≤ L := by push_cast; exact hkL
          have h2 : ((len : Nat) : Int) = L + 1 := by
            rw [hlendef, hw]; omega
          omega
        have hcell : s.2.getD (c * n) false = false := by
          cases hb : s.2.getD (c * n) false with
          | false => rfl
          | true =>
            exfalso
            obtain ⟨-, hall⟩ := (hsift.2 (c * n) hlt).mp hb
            exact hall c hc2 hcn (Nat.mul_le_mul_left c (by omega)) (Dvd.intro n rfl)
        have hrd := readAt_nat s.2 (c * n) (by rw [hsift.1]; exact hlt)
        rw [hcell] at hrd
        rw [← hrd]
        congr 1
      · unfold markedArrayFromDouble markedArray
        rw [hinit]
        simp only []
        rw [hm, hm']
      · unfold markedArray
        rw [hinit]
        simp only []
        rw [hm]
        simp
    · have hinit := initArray_panic wrap64 L hv fuel
      refine ⟨?_, ?_, ?_⟩
      · intro m0 hm0
        rw [hinit] at hm0
        cases hm0
      · unfold markedArrayFromDouble markedArray
        rw [hinit]
      · unfold markedArray
        rw [hinit]
        simp
  refine ⟨hmain.1, hmain.2.1, hmain.2.2, ?_⟩
  rw [hmain.2.1, ← sieveWith_eq_collectRun]
  exact (sieveWith_enough L hL hL2 fuel hf).1

/-- Witness of C12 at the limit 30 (there, for instance, the cells 10, 15 and
    20 are unmarked when the loop reaches 5). -/
theorem striking_from_square_same_as_from_double_witness :
    (∀ m1, initArray wrap64 32 30 = .done m1 →
      ∀ s ∈ markStates wrap64 32 32 2 m1,
        ∀ k : Int, 2 ≤ k → k < s.1 → k * s.1 ≤ 30 → readAt s.2 (k * s.1) = .ok false) ∧
    markedArrayFromDouble wrap64 32 30 = markedArray wrap64 32 30 ∧
    markedArray wrap64 32 30 ≠ .outOfFuel ∧
    collectRun (markedArrayFromDouble wrap64 32 30) = sieve 30 :=
  striking_from_square_same_as_from_double 30 (by decide) (by decide) 32 (by decide)

/-! ### How the loop variables advance -/

theorem markStates_head (w : Int → Int) (inner fuel : Nat) (i : Int) (marked : List Bool) :
    ∀ x ∈ (markStates w inner fuel i marked).head?, x = (i, marked) := by
  intro x hx
  cases fuel with
  | zero => simp [markStates] at hx
  | succ fuel =>
    unfold markStates at hx
    simp only [List.head?_cons, Option.mem_def, Option.some.injEq] at hx
    exact hx.symm

theorem strikeStates_head (w : Int → Int) (fuel : Nat) (p j : Int) (marked : List Bool) :
    ∀ x ∈ (strikeStates w fuel p j marked).head?, x = j := by
  intro x hx
  cases fuel with
  | zero => simp [strikeStates] at hx
  | succ fuel =>
    unfold strikeStates at hx
    simp only [List.head?_cons, Option.mem_def, Option.some.injEq] at hx
    exact hx.symm

/-- From one evaluation of the condition of the marking loop to the next,
    `i` goes up by exactly 1. -/
theorem markStates_chain (w : Int → Int) (hw : Exact64 w) (len inner : Nat)
    (hlen : len ≤ 2 ^ 62) (hinner : len + 1 ≤ inner) :
    ∀ (fuel n : Nat) (marked : List Bool),
      Sifted len n marked → 2 ≤ n → n ≤ 2 ^ 31 →
      List.Chain' (fun a b : Int × List Bool => b.1 = a.1 + 1)
        (markStates w inner fuel (n : Int) marked) := by
  intro fuel
  induction fuel with
  | zero => intro n marked _ _ _; simp [markStates]
  | succ fuel ih =>
    intro n marked hsift hn2 hn31
    have hml : marked.length = len := hsift.1
    unfold markStates
    rw [exact_sq w hw n hn31]
    by_cases hc : n * n < len
    · have hc2 : ((n * n : Nat) : Int) < (marked.length : Int) := by
        rw [hml]; exact_mod_cast hc
      have hil : n < len := lt_of_le_of_lt (Nat.le_mul_self n) hc
      have hn31b : n < 2 ^ 31 := sq_bound hc hlen
      rw [if_pos hc2, readAt_nat marked n (by omega),
        exact_succ w hw n (by norm_num at hn31 ⊢; omega)]
      cases hb : marked.getD n false with
      | true =>
        simp only []
        obtain ⟨m, hm, hmlen, hmk⟩ := strikeLoop_spec w hw n (by omega)
          (by norm_num at hn31 ⊢; omega) inner (n * n) marked (by omega)
          (Dvd.intro n rfl) (by omega) (by omega)
        rw [hm]
        simp only []
        rw [List.chain'_cons']
        refine ⟨fun x hx => ?_, ih (n + 1) m
          (sifted_strike len n marked m hsift hn2 hmlen hmk) (by omega) (by omega)⟩
        rw [markStates_head w inner fuel _ m x hx]
        push_cast
        rfl
      | false =>
        simp only []
        rw [List.chain'_cons']
        refine ⟨fun x hx => ?_, ih (n + 1) marked
          (sifted_skip len n marked hsift hn2 hil hb) (by omega) (by omega)⟩
        rw [markStates_head w inner fuel _ marked x hx]
        push_cast
        rfl
    · have hc2 : ¬ ((n * n : Nat) : Int) < (marked.length : Int) := by
        rw [hml]; intro h; exact hc (by exact_mod_cast h)
      rw [if_neg hc2]
      exact List.chain'_singleton _

/-- From one evaluation of the condition of the striking loop to the next,
    `j` goes up by exactly `smallPrime`. -/
theorem strikeStates_chain (w : Int → Int) (hw : Exact64 w) (p len : Nat)
    (hp : p ≤ 2 ^ 31) (hlen : len ≤ 2 ^ 62) :
    ∀ (fuel j : Nat) (marked : List Bool), marked.length = len →
      List.Chain' (fun a b : Int => b = a + (p : Int))
        (strikeStates w fuel (p : Int) (j : Int) marked) := by
  intro fuel
  induction fuel with
  | zero => intro j marked _; simp [strikeStates]
  | succ fuel ih =>
    intro j marked hml
    unfold strikeStates
    by_cases hc : j < marked.length
    · have hc2 : (j : Int) < (marked.length : Int) := by omega
      have hw1 : w ((j : Int) + (p : Int)) = ((j + p : Nat) : Int) := by
        have := hw ((j : Int) + p) (by omega) (by norm_num at hlen hp ⊢; omega)
        simpa using this
      rw [if_pos hc2, writeAt_nat marked j false hc, hw1]
      simp only []
      rw [List.chain'_cons']
      refine ⟨fun x hx => ?_, ih (j + p) (marked.set j false) (by simpa using hml)⟩
      rw [strikeStates_head w fuel _ _ _ x hx]
      push_cast
      rfl
    · have hc2 : ¬ (j : Int) < (marked.length : Int) := by omega
      rw [if_neg hc2]
      exact List.chain'_singleton _

theorem sieveWith_panic (w : Int → Int) (L : Int)
    (h : ¬ (0 ≤ w (L + 1) ∧ w (L + 1) ≤ maxAlloc)) (fuel : Nat) :
    sieveWith w fuel L = .panic .makesliceLen := by
  have hmk : makeBools (w (L + 1)) = .error .makesliceLen := by
    unfold makeBools
    have : w (L + 1) < 0 ∨ maxAlloc < w (L + 1) := by omega
    rw [if_pos this]
  unfold sieveWith
  rw [hmk]

/-- The build that allocates its array gets through the initialisation loop;
    the array has `L + 1` cells. -/
theorem initArray_done (L : Int) (hL : -(2 ^ 63) ≤ L) (hL2 : L < 2 ^ 63)
    (hv : 0 ≤ wrap64 (L + 1) ∧ wrap64 (L + 1) ≤ maxAlloc) (fuel : Nat)
    (hf : sieveFuel L ≤ fuel) :
    ∃ (len : Nat) (m1 : List Bool), (len : Int) = L + 1 ∧ len ≤ 2 ^ 62 ∧ len + 1 ≤ fuel ∧
      initArray wrap64 fuel L = .done m1 ∧ Sifted len 2 m1 := by
  obtain ⟨hw, hfuel, hlen⟩ := wrap64_succ_of_alloc L hL hL2 hv
  obtain ⟨len, hlendef⟩ : ∃ len : Nat, len = (wrap64 (L + 1)).toNat := ⟨_, rfl⟩
  rw [← hlendef] at hfuel hlen
  have hinit := initArray_ok wrap64 L _ rfl hv.1 hv.2 fuel
  rw [← hlendef] at hinit
  obtain ⟨m1, hm1, hs1⟩ := initLoop_sifted wrap64 wrap64_exact len fuel hlen (by omega)
  rw [hm1] at hinit
  exact ⟨len, m1, by rw [hlendef, hw]; omega, hlen, by omega, hinit, hs1⟩

/-- The build that gets through the initialisation loop has allocated its
    array. -/
theorem alloc_of_initArray_done (L : Int) (fuel : Nat) (m1 : List Bool)
    (h : initArray wrap64 fuel L = .done m1) :
    0 ≤ wrap64 (L + 1) ∧ wrap64 (L + 1) ≤ maxAlloc := by
  by_contra hv
  rw [initArray_panic wrap64 L hv fuel] at h
  cases h

/-- C14: in the build for a limit `0 ≤ L < 2^63` the out-of-range branch of
    an access of the marked array is never taken, however far the run is
    followed (for every amount of fuel); on an array of `L + 1` cells that
    branch is taken exactly by an index outside `0 .. L`; and the index `i`
    read by the marking loop and every index `j` written by the striking loop
    lie in `0 .. L`. -/
theorem sieve_indexes_within_bounds (L : Int) (h0 : 0 ≤ L) (h63 : L < 2 ^ 63) :
    (∀ fuel : Nat, sieveWith wrap64 fuel L ≠ .panic .indexOutOfRange) ∧
    sieve L ≠ .panic .indexOutOfRange ∧
    (∀ (marked : List Bool) (i : Int), (marked.length : Int) = L + 1 →
      (readAt marked i ≠ .error .indexOutOfRange ↔ 0 ≤ i ∧ i ≤ L) ∧
      ∀ b, (writeAt marked i b ≠ .error .indexOutOfRange ↔ 0 ≤ i ∧ i ≤ L)) ∧
    (∀ (fuel : Nat) (m1 : List Bool), sieveFuel L ≤ fuel →
      initArray wrap64 fuel L = .done m1 →
      ∀ s ∈ markStates wrap64 fuel fuel 2 m1,
        (s.2.length : Int) = L + 1 ∧
        (wrap64 (s.1 * s.1) < s.2.length → 0 ≤ s.1 ∧ s.1 ≤ L) ∧
        ∀ j ∈ strikeStates wrap64 fuel s.1 (wrap64 (s.1 * s.1)) s.2,
          j < s.2.length → 0 ≤ j ∧ j ≤ L) := by
  have hL : -(2 ^ 63) ≤ L := by omega
  have hsv : sieve L ≠ .panic .indexOutOfRange := by
    rw [sieve_eq L hL h63]
    split_ifs <;> simp
  refine ⟨fun fuel => ?_, hsv, fun marked i hlen => ?_, ?_⟩
  · rcases sieveWith_any_fuel L hL h63 fuel with h | h
    · rw [h]; simp
    · rw [h]; exact hsv
  · refine ⟨?_, fun b => ?_⟩
    · rw [readAt_in_bounds, hlen]
      constructor
      · rintro ⟨h1, h2⟩; exact ⟨h1, by omega⟩
      · rintro ⟨h1, h2⟩; exact ⟨h1, by omega⟩
    · rw [writeAt_in_bounds, hlen]
      constructor
      · rintro ⟨h1, h2⟩; exact ⟨h1, by omega⟩
      · rintro ⟨h1, h2⟩; exact ⟨h1, by omega⟩
  · intro fuel m1 hf hinit s hs
    obtain ⟨len, m0, hlenL, hlen62, hfuel, hinit0, hs1⟩ :=
      initArray_done L hL h63 (alloc_of_initArray_done L fuel m1 hinit) fuel hf
    rw [hinit] at hinit0
    cases hinit0
    obtain ⟨n, hn, hn2, hn31, hsift⟩ := markStates_sifted wrap64 wrap64_exact len fuel hlen62
      (by omega) fuel 2 m1 hs1 (by omega) (by norm_num) s (by simpa using hs)
    have hsl : (s.2.length : Int) = L + 1 := by rw [hsift.1]; exact hlenL
    refine ⟨hsl, ?_, ?_⟩
    · intro hg
      rw [hn, exact_sq wrap64 wrap64_exact n hn31, hsift.1] at hg
      have h1 : n * n < len := by exact_mod_cast hg
      have h2 : n ≤ n * n := Nat.le_mul_self n
      rw [hn]
      omega
    · intro j hj hjl
      rw [hn, exact_sq wrap64 wrap64_exact n hn31] at hj
      obtain ⟨k, hk, -, -⟩ := strikeStates_bound wrap64 wrap64_exact n len hn31 hlen62 fuel
        (n * n) s.2 hsift.1 j hj
      rw [hk] at hjl ⊢
      omega

/-- Witness of C14 at the limit 30. -/
theorem sieve_indexes_within_bounds_witness :
    sieve 30 ≠ .panic .indexOutOfRange ∧ sieveWith wrap64 7 30 ≠ .panic .indexOutOfRange :=
  ⟨(sieve_indexes_within_bounds 30 (by decide) (by decide)).2.1,
    (sieve_indexes_within_bounds 30 (by decide) (by decide)).1 7⟩

/-- C15: the build for a limit `0 ≤ L < 2^63` terminates.  The run `sieve L`
    does not run out of fuel, every run with at least that much fuel has the
    same outcome, and a run with less can only run out.  In the marking loop
    `i` starts at 2 and goes up by 1 from one test of `i*i < len(marked)` to
    the next, and a test with `i*i ≥ L + 1` is reached; in the striking loop
    `j` goes up by `smallPrime = i ≥ 2` from one test of `j < len(marked)` to
    the next, and a test with `j ≥ L + 1` is reached. -/
theorem sieve_terminates (L : Int) (h0 : 0 ≤ L) (h63 : L < 2 ^ 63) :
    sieve L ≠ .outOfFuel ∧
    (∀ fuel : Nat, sieveFuel L ≤ fuel → sieveWith wrap64 fuel L = sieve L) ∧
    (∀ fuel : Nat, sieveWith wrap64 fuel L = .outOfFuel ∨ sieveWith wrap64 fuel L = sieve L) ∧
    (∀ (fuel : Nat) (m1 : List Bool), sieveFuel L ≤ fuel →
      initArray wrap64 fuel L = .done m1 →
      List.Chain' (fun a b : Int × List Bool => b.1 = a.1 + 1)
        (markStates wrap64 fuel fuel 2 m1) ∧
      (∃ s ∈ markStates wrap64 fuel fuel 2 m1, L + 1 ≤ s.1 * s.1) ∧
      ∀ s ∈ markStates wrap64 fuel fuel 2 m1,
        2 ≤ s.1 ∧
        List.Chain' (fun a b : Int => b = a + s.1)
          (strikeStates wrap64 fuel s.1 (wrap64 (s.1 * s.1)) s.2) ∧
        ∃ j ∈ strikeStates wrap64 fuel s.1 (wrap64 (s.1 * s.1)) s.2, L + 1 ≤ j) := by
  have hL : -(2 ^ 63) ≤ L := by omega
  refine ⟨(sieveWith_enough L hL h63 _ (le_refl _)).2,
    fun fuel hf => (sieveWith_enough L hL h63 fuel hf).1,
    fun fuel => sieveWith_any_fuel L hL h63 fuel, ?_⟩
  intro fuel m1 hf hinit
  obtain ⟨len, m0, hlenL, hlen62, hfuel, hinit0, hs1⟩ :=
    initArray_done L hL h63 (alloc_of_initArray_done L fuel m1 hinit) fuel hf
  rw [hinit] at hinit0
  cases hinit0
  have hstates := markStates_sifted wrap64 wrap64_exact len fuel hlen62 (by omega) fuel 2 m1
    hs1 (by omega) (by norm_num)
  simp only [Nat.cast_ofNat] at hstates
  refine ⟨?_, ?_, ?_⟩
  · have := markStates_chain wrap64 wrap64_exact len fuel hlen62 (by omega) fuel 2 m1 hs1
      (by omega) (by norm_num)
    simpa using this
  · obtain ⟨m, i2, hm, -, -⟩ := markLoop_spec wrap64 wrap64_exact len fuel hlen62 (by omega)
      fuel 2 m1 hs1 (by omega) (by norm_num) (by omega) (by omega)
    simp only [Nat.cast_ofNat] at hm
    obtain ⟨i3, hmem, hexit⟩ := markStates_last wrap64 fuel fuel 2 m1 m hm
    refine ⟨(i3, m), hmem, ?_⟩
    obtain ⟨n, hn, -, hn31, hsift⟩ := hstates (i3, m) hmem
    simp only at hn hsift hexit ⊢
    rw [hn, exact_sq wrap64 wrap64_exact n hn31, hsift.1] at hexit
    have h1 : ¬ n * n < len := fun h => hexit (by exact_mod_cast h)
    rw [hn]
    have h2 : ((len : Nat) : Int) ≤ ((n * n : Nat) : Int) := by exact_mod_cast not_lt.mp h1
    push_cast at h2
    omega
  · intro s hs
    obtain ⟨n, hn, hn2, hn31, hsift⟩ := hstates s hs
    refine ⟨by rw [hn]; omega, ?_, ?_⟩
    · rw [hn, exact_sq wrap64 wrap64_exact n hn31]
      exact strikeStates_chain wrap64 wrap64_exact n len hn31 hlen62 fuel (n * n) s.2 hsift.1
    · rw [hn, exact_sq wrap64 wrap64_exact n hn31]
      obtain ⟨m, hm, -, -⟩ := strikeLoop_spec wrap64 wrap64_exact n (by omega)
        (by norm_num at hn31 ⊢; omega) fuel (n * n) s.2 (by rw [hsift.1]; exact hlen62)
        (Dvd.intro n rfl) (by rw [hsift.1]; omega) (by omega)
      obtain ⟨j2, hj2, hexit⟩ := strikeStates_last wrap64 n fuel _ s.2 m hm
      refine ⟨j2, hj2, ?_⟩
      rw [hsift.1] at hexit
      omega

/-- Witness of C15 at the limit 30. -/
theorem sieve_terminates_witness :
    sieve 30 ≠ .outOfFuel ∧ sieveWith wrap64 1000 30 = sieve 30 :=
  ⟨(sieve_terminates 30 (by decide) (by decide)).1,
    (sieve_terminates 30 (by decide) (by decide)).2.1 1000 (by decide)⟩

/-- C16: for a limit `0 ≤ L < 2^62`, run the marking loops with unbounded
    integers on the array of `L + 1` cells that the initialisation loop
    leaves.  Every `i*i` computed by the marking loop, every `i + 1`, every
    `j` of the striking loop and every `j + smallPrime` lies in `0 .. 2^63-1`;
    so the marking loop with 64-bit wrap-around returns the same array, and
    the sieve with 64-bit wrap-around has the same outcome as the sieve with
    unbounded integers. -/
theorem marking_arithmetic_fits_int64 (L : Int) (h0 : 0 ≤ L) (h62 : L < 2 ^ 62)
    (fuel : Nat) (hf : sieveFuel L ≤ fuel) :
    (∃ m1, initLoop (fun x => x) fuel 2 (List.replicate (L + 1).toNat false) = .done m1) ∧
    (∀ m1, initLoop (fun x => x) fuel 2 (List.replicate (L + 1).toNat false) = .done m1 →
      (∀ s ∈ markStates (fun x => x) fuel fuel 2 m1,
        0 ≤ s.1 * s.1 ∧ s.1 * s.1 < 2 ^ 63 ∧ 0 ≤ s.1 + 1 ∧ s.1 + 1 < 2 ^ 63 ∧
        ∀ j ∈ strikeStates (fun x => x) fuel s.1 (s.1 * s.1) s.2,
          0 ≤ j ∧ j < 2 ^ 63 ∧ 0 ≤ j + s.1 ∧ j + s.1 < 2 ^ 63) ∧
      markLoop wrap64 fuel fuel 2 m1 = markLoop (fun x => x) fuel fuel 2 m1 ∧
      markLoop wrap64 fuel fuel 2 m1 ≠ .outOfFuel) ∧
    sieveWith wrap64 fuel L = sieveWith (fun x => x) fuel L := by
  obtain ⟨len, hlendef⟩ : ∃ len : Nat, len = (L + 1).toNat := ⟨_, rfl⟩
  have hlen62 : len ≤ 2 ^ 62 := by norm_num at h62 ⊢; omega
  have hfuel : len + 1 ≤ fuel := by unfold sieveFuel at hf; omega
  rw [← hlendef]
  obtain ⟨m0, hm0, hs0⟩ := initLoop_sifted (fun x => x) id_exact len fuel hlen62 hfuel
  refine ⟨⟨m0, hm0⟩, ?_, ?_⟩
  · intro m1 hm1
    rw [hm0] at hm1
    cases hm1
    refine ⟨?_, ?_, ?_⟩
    · intro s hs
      obtain ⟨n, hn, hn2, hn31, hsift⟩ := markStates_sifted (fun x => x) id_exact len fuel
        hlen62 hfuel fuel 2 m0 hs0 (by omega) (by norm_num) s (by simpa using hs)
      have hsq : n * n ≤ 2 ^ 62 := by
        have := Nat.mul_le_mul hn31 hn31
        norm_num at this ⊢
        exact this
      have hsqi : s.1 * s.1 = ((n * n : Nat) : Int) := by rw [hn]; push_cast; rfl
      refine ⟨by rw [hsqi]; omega, by rw [hsqi]; norm_num at hsq ⊢; omega, by rw [hn]; omega,
        by rw [hn]; norm_num at hn31 ⊢; omega, ?_⟩
      intro j hj
      rw [hsqi] at hj
      rw [hn] at hj ⊢
      obtain ⟨k, hk, -, hkmax⟩ := strikeStates_bound (fun x => x) id_exact n len hn31 hlen62
        fuel (n * n) s.2 hsift.1 j hj
      have hkb : k ≤ 2 ^ 62 + 2 ^ 31 := by
        rcases le_max_iff.mp hkmax with h | h
        · exact le_trans h (le_trans hsq (Nat.le_add_right _ _))
        · exact le_trans h (Nat.add_le_add hlen62 hn31)
      rw [hk]
      norm_num at hkb hn31 ⊢
      omega
    · obtain ⟨m, hm, -, hml, hmk⟩ := markLoop_eq_fromDouble wrap64 wrap64_exact len fuel
        hlen62 hfuel m0 hs0
      obtain ⟨m', hm', -, hml', hmk'⟩ := markLoop_eq_fromDouble (fun x => x) id_exact len fuel
        hlen62 hfuel m0 hs0
      rw [hm, hm']
      refine congrArg Run.done (bools_ext m m' (by rw [hml, hml']) fun k hk => ?_)
      rw [hml] at hk
      rw [hmk k hk, hmk' k hk]
    · obtain ⟨m, hm, -, -, -⟩ := markLoop_eq_fromDouble wrap64 wrap64_exact len fuel
        hlen62 hfuel m0 hs0
      rw [hm]
      simp
  · have hA : maxAlloc = 2 ^ 48 := rfl
    have hw : wrap64 (L + 1) = L + 1 :=
      wrap64_exact (L + 1) (by omega) (by norm_num at h62 ⊢; omega)
    by_cases hv : L + 1 ≤ maxAlloc
    · rw [sieveWith_done wrap64 wrap64_exact L (L + 1) hw (by omega) hv fuel (by omega),
        sieveWith_done (fun x => x) id_exact L (L + 1) rfl (by omega) hv fuel (by omega)]
    · rw [sieveWith_panic wrap64 L (by rw [hw]; omega) fuel,
        sieveWith_panic (fun x => x) L
          (by show ¬ (0 ≤ L + 1 ∧ L + 1 ≤ maxAlloc); omega) fuel]

/-- Witness of C16 at the limit 30. -/
theorem marking_arithmetic_fits_int64_witness :
    sieveWith wrap64 32 30 = sieveWith (fun x => x) 32 30 :=
  (marking_arithmetic_fits_int64 30 (by decide) (by decide) 32 (by decide)).2.2

end Sieve
